import Mathlib

/-!
Verification of the manifest-driven reconciliation engine of the
`everything-cursor` repository (scripts `cursor-install.mjs` in its two
variants, and `removeEmptyDirectories` from `cursor-uninstall.mjs`).

Shallow embedding conventions:
* Absolute filesystem paths are lists of path segments (`List String`);
  the repository root is a parameter `root`, and `CURSOR_DIR = root ++ [".cursor"]`.
* The destination filesystem is a finite association list from paths to file
  contents (`String` stands for the byte content), plus a list of directories.
  Symbolic links in the destination are not modelled; in the source tree they
  are (the enumerator must skip them).
* The manifest JSON file and its backup are modelled as separate fields of the
  destination state (`StoredFile`), not as entries of the file map, mirroring
  the fact that the engine treats them specially.
* `path.resolve` / `path.normalize` / `path.join` are modelled by segment
  normalization (`normalizeSegs`), and the JavaScript `String.prototype.startsWith`
  comparison inside `validatePath` is modelled on rendered path strings
  (`renderPath` / `startsWithStr`), which is what makes the prefix-boundary bug
  expressible.
-/

/-! ## String and path utilities -/

/-- Model of JS `String.prototype.startsWith`: character-list prefix test. -/
def startsWithStr (s pre : String) : Bool :=
  pre.data.isPrefixOf s.data

/-- ASCII lower-casing of one character (sufficient for the `.md` comparison
performed by the sources). -/
def lowerChar (c : Char) : Char :=
  if 'A' ≤ c ∧ c ≤ 'Z' then Char.ofNat (c.toNat + 32) else c

/-- Index of the last '.' in a character list (with starting offset). -/
def lastDotIdxAux : List Char → Nat → Option Nat
  | [], _ => none
  | c :: rest, i =>
    match lastDotIdxAux rest (i + 1) with
    | some j => some j
    | none => if c = '.' then some i else none

/-- Model of `path.extname(name).toLowerCase() === ".md"` from `getMdFiles`:
the extension is the suffix starting at the last dot, provided that dot is not
the first character of the (base) name. -/
def isMdName (n : String) : Bool :=
  match lastDotIdxAux n.data 0 with
  | some i => if 0 < i then (n.data.drop i).map lowerChar = ['.', 'm', 'd'] else false
  | none => false

/-- Stack-based segment normalization: models the `..`/`.`/empty-segment
resolution performed by `path.resolve`/`path.normalize`/`path.join` on an
absolute path (clamping `..` at the root, as Node does). -/
def normAux : List String → List String → List String
  | acc, [] => acc.reverse
  | acc, s :: rest =>
    if s = "" ∨ s = "." then normAux acc rest
    else if s = ".." then normAux (acc.drop 1) rest
    else normAux (s :: acc) rest

def normalizeSegs (p : List String) : List String := normAux [] p

/-- Render an absolute segment path as the POSIX string Node would produce. -/
def renderPath : List String → String
  | [] => ""
  | s :: rest => "/" ++ s ++ renderPath rest

/-- Join path segments with "/" (how the scripts build manifest keys:
`dir + "/" + relativePath`, and how `path.relative` renders). -/
def joinSegs : List String → String
  | [] => ""
  | [s] => s
  | s :: rest => s ++ "/" ++ joinSegs rest

/-- Manifest keys are strings joined with "/": `dir + "/" + relativePath`. -/
def renderKey (d : String) (rel : List String) : String :=
  joinSegs (d :: rel)

/-- Character-level splitting of a string at '/' (the segment view that
`path.join(CURSOR_DIR, manifestKey)` induces on the key). -/
def splitSegsAux : List Char → List Char → List String
  | cur, [] => [⟨cur.reverse⟩]
  | cur, c :: rest =>
    if c = '/' then ⟨cur.reverse⟩ :: splitSegsAux [] rest
    else splitSegsAux (c :: cur) rest

def splitPath (k : String) : List String := splitSegsAux [] k.data

/-- A path segment that a real `readdir` can produce (and that keeps
normalization trivial): nonempty, not a dot-segment, no separator inside. -/
def cleanSeg (s : String) : Bool :=
  !(s = "") && !(s = ".") && !(s = "..") && !(s.data.contains '/')

def cleanSegs (l : List String) : Bool := l.all cleanSeg

/-!
`validatePath` from `cursor-install.mjs`:

```
function validatePath(filePath, baseDir) {
  const resolved = path.resolve(filePath);
  const normalized = path.normalize(resolved);
  const base = path.resolve(baseDir);
  if (!normalized.startsWith(base)) {
    throw new Error(`Path traversal detected: ...`);
  }
  return normalized;
}
```
-/

def validatePath (filePath : List String) (baseDir : List String) :
    Except String (List String) :=
  let resolved := normalizeSegs filePath
  let base := normalizeSegs baseDir
  if startsWithStr (renderPath resolved) (renderPath base) then
    Except.ok resolved
  else
    Except.error ("Path traversal detected: " ++ renderPath filePath)

/-! ## Destination filesystem model -/

/-- Destination filesystem: regular files (path to byte content) and the set of
existing directories.  The manifest and backup JSON files are modelled
separately (see `DestState`). -/
structure FS where
  files : List (List String × String)
  dirs : List (List String)
deriving DecidableEq, Repr

def FS.read (fs : FS) (p : List String) : Option String :=
  (fs.files.find? (fun e => e.1 = p)).map (·.2)

def FS.write (fs : FS) (p : List String) (c : String) : FS :=
  { fs with files := (p, c) :: fs.files.filter (fun e => ¬ (e.1 = p)) }

def FS.erase (fs : FS) (p : List String) : FS :=
  { fs with files := fs.files.filter (fun e => ¬ (e.1 = p)) }

/-- All nonempty prefixes of a path: the directories `mkdirSync(..., recursive)`
creates. -/
def segPrefixes (p : List String) : List (List String) :=
  (List.range p.length).map (fun i => p.take (i + 1))

/-- `fs.mkdirSync(p, recursive: true)`. -/
def FS.mkdirp (fs : FS) (p : List String) : FS :=
  { fs with
    dirs := fs.dirs ++ (segPrefixes p).filter (fun q => ¬ (q ∈ fs.dirs)) }

/-- The `.md` files physically below directory `d`, as (relative path, content)
pairs: model of `getMdFiles(destDir)` applied to the destination tree. -/
def FS.mdFilesUnder (fs : FS) (d : List String) : List (List String × String) :=
  fs.files.filterMap fun e =>
    if d.isPrefixOf e.1 && d.length < e.1.length && isMdName (e.1.getLastD "") then
      some (e.1.drop d.length, e.2)
    else none

/-! ## Source tree model and enumeration -/

/-- One directory entry of the source (submodule) tree, as seen through
`fs.readdirSync(dir, withFileTypes: true)`. -/
inductive Entry
  | file (name : String) (content : String)
  | dir (name : String) (entries : List Entry)
  | symlink (name : String)

def Entry.name : Entry → String
  | .file n _ => n
  | .dir n _ => n
  | .symlink n => n

mutual

/-- `getMdFiles` from `cursor-install.mjs`, restricted to one entry: symlinks
are skipped, directories are recursed into, and regular files are yielded only
when their lower-cased extension is `.md`.  Yields (relative path, content). -/
def getMdFilesEntry : Entry → List (List String × String)
  | .symlink _ => []
  | .file n c => if isMdName n then [([n], c)] else []
  | .dir n es => (getMdFilesEntries es).map (fun rc => (n :: rc.1, rc.2))

/-- `getMdFiles` over a directory listing, in listing order. -/
def getMdFilesEntries : List Entry → List (List String × String)
  | [] => []
  | e :: rest => getMdFilesEntry e ++ getMdFilesEntries rest

end

mutual

/-- Well-formedness of a source entry: its name is a segment `readdir` can
actually produce, and its children are well-formed. -/
def WFEntry : Entry → Bool
  | .file n _ => cleanSeg n
  | .symlink n => cleanSeg n
  | .dir n es => cleanSeg n && WFEntries es

/-- Well-formedness of a directory listing: pairwise distinct names (as on a
real filesystem) and each entry well-formed. -/
def WFEntries : List Entry → Bool
  | [] => true
  | e :: rest =>
    WFEntry e && !(rest.map Entry.name).contains e.name && WFEntries rest

end

/-! ## Manifest model -/

/-- One value of `newManifest.files[key]`. -/
structure ManifestEntry where
  source : String
  installedAt : String
  checksum : String
deriving DecidableEq, Repr

/-- The JSON object stored in `.everything-cursor-manifest.json`, as produced
by `JSON.parse`.  `version = none` or `some ""` models a missing/falsy
`version` field; `filesIsObject` models `typeof manifest.files === "object"`
(the check actually performed by `loadManifest`). -/
structure RawManifest where
  version : Option String
  selectedLocation : Option String
  installedAt : Option String
  submoduleGitHash : Option String
  submoduleGitTag : Option String
  filesIsObject : Bool
  files : List (String × ManifestEntry)
deriving DecidableEq, Repr

/-- State of a manifest (or backup) file on disk: absent is `Option.none` at
the use sites; present content is either JSON that fails to parse or a parsed
object. -/
inductive StoredFile
  | invalidJson
  | json (m : RawManifest)
deriving DecidableEq, Repr

/-- SHA-256 digests are abstracted by an injective placeholder; no claim
depends on actual digest values, only on entries being recorded. -/
def calculateChecksum (content : String) : String := content

/-- Model of the 40-lowercase-or-uppercase-hex test
`/^[a-f0-9]{40}$/i.test(hash)`. -/
def isHexChar (c : Char) : Bool :=
  ('0' ≤ c && c ≤ '9') || ('a' ≤ c && c ≤ 'f') || ('A' ≤ c && c ≤ 'F')

def isValidGitHash (s : String) : Bool :=
  s.length = 40 && s.data.all isHexChar

/-- `loadManifest` from the git-based installer (`src/unnamed/part_002`):
missing file, unparsable JSON, falsy `version`, non-object `files`, or a
*truthy* `submoduleGitHash` failing the 40-hex test all yield `null` (after a
warning); the guard is `manifest.submoduleGitHash && !re.test(...)`, so a
falsy (empty-string) hash short-circuits the test and the manifest is
accepted; otherwise the parsed object is returned unchanged. -/
def loadManifest : Option StoredFile → Option RawManifest
  | none => none
  | some .invalidJson => none
  | some (.json m) =>
    if m.version.getD "" = "" then none
    else if !m.filesIsObject then none
    else if (match m.submoduleGitHash with
             | some h => !(h = "") && !isValidGitHash h
             | none => false) then none
    else some m

/-- `loadManifestFromPath` from the location-aware installer
(`src/unnamed/part_003`): same checks as `loadManifest` (including the
truthiness guard in `manifest.submoduleGitHash && !re.test(...)`), plus
rejection of a truthy `selectedLocation` outside of `local`/`home`. -/
def loadManifestFromPath : StoredFile → Option RawManifest
  | .invalidJson => none
  | .json m =>
    if m.version.getD "" = "" then none
    else if !m.filesIsObject then none
    else if (match m.selectedLocation with
             | some l => !(l = "") && !(l = "local") && !(l = "home")
             | none => false) then none
    else if (match m.submoduleGitHash with
             | some h => !(h = "") && !isValidGitHash h
             | none => false) then none
    else some m

/-- `getGitHash` from the location-aware installer when running from an npm
installation: `npm-` followed by the package version, or `npm-unknown` when
`package.json` cannot be read. -/
def getGitHashNpm : Option String → String
  | some v => "npm-" ++ v
  | none => "npm-unknown"

/-- `saveManifest` serializes the manifest object; `JSON.parse` of the result
gives back the same object. -/
def saveManifestFile (m : RawManifest) : StoredFile := .json m

/-! ## The reconciliation engine (`installWithPreservation`, `src/unnamed/part_002`) -/

/-- The fixed managed subdirectories `DIRS_TO_COPY`. -/
def DIRS_TO_COPY : List String := ["agents", "skills", "commands", "rules"]

/-- Counters of the `stats` object. -/
structure Stats where
  updated : Nat
  added : Nat
  removed : Nat
  preserved : Nat
deriving DecidableEq, Repr

/-- One observable per-file action of a reconciliation run, corresponding
one-to-one to the log lines the script prints:
`(updated)`/`(added)` for a copy (with the `existed` flag deciding which),
`(preserved - user file)`, and `(removed - deleted from submodule)`. -/
inductive Op
  | copied (key : String) (existed : Bool)
  | preservedUser (key : String)
  | removedStale (key : String)
deriving DecidableEq, Repr

/-- Mutable state threaded through the copy/preserve/cleanup loops. -/
structure LoopState where
  fs : FS
  manifestFiles : List (String × ManifestEntry)
  stats : Stats
  installed : List (List String × Bool)
  ops : List Op
deriving Repr

/-- Destination-side persistent state: the content files, the manifest file
and the backup manifest file (`none` = file absent). -/
structure DestState where
  fs : FS
  manifestFile : Option StoredFile
  backupFile : Option StoredFile
deriving DecidableEq, Repr

/-- Outcome of one `installWithPreservation` invocation:
`skipped` is the already-up-to-date short-circuit (`process.exit(0)` before
any mutation), `ok` is a completed installation, `failed` is an error after
the automatic rollback (the error is re-thrown). -/
inductive InstallResult
  | skipped (st : DestState)
  | ok (st : DestState) (stats : Stats) (manifest : RawManifest) (ops : List Op)
  | failed (msg : String) (st : DestState)
deriving DecidableEq, Repr

/-- The body of the copy loop for one source file `(rel, content)` of managed
directory `d`:
validate the destination path, record existence, create parent directories,
copy, push onto `installedFiles`, record the manifest entry, and count
updated/added. -/
def copyOne (cursor : List String) (d : String) (now : String)
    (s : LoopState) (rc : List String × String) :
    Except (String × LoopState) LoopState :=
  match validatePath (cursor ++ d :: rc.1) cursor with
  | .error e => .error (e, s)
  | .ok destPath =>
    let key := renderKey d rc.1
    let existed := (s.fs.read destPath).isSome
    let fs1 := (s.fs.mkdirp destPath.dropLast).write destPath rc.2
    .ok
    { fs := fs1
      manifestFiles := s.manifestFiles ++
        [(key, { source := joinSegs ("everything-claude-code" :: d :: rc.1)
                 installedAt := now
                 checksum := calculateChecksum rc.2 })]
      stats :=
        if existed then { s.stats with updated := s.stats.updated + 1 }
        else { s.stats with added := s.stats.added + 1 }
      installed := s.installed ++ [(destPath, !existed)]
      ops := s.ops ++ [Op.copied key existed] }

/-- The copy loop over the enumerated `.md` files of one managed directory. -/
def copyFiles (cursor : List String) (d : String) (now : String) :
    LoopState → List (List String × String) → Except (String × LoopState) LoopState
  | s, [] => .ok s
  | s, rc :: rest =>
    match copyOne cursor d now s rc with
    | .error e => .error e
    | .ok s1 => copyFiles cursor d now s1 rest

/-- One step of the user-file check: count the file as preserved when its
manifest key is absent from the new manifest built so far. -/
def preservedStep (d : String) (s1 : LoopState) (rc : List String × String) : LoopState :=
  if (s1.manifestFiles.find? (fun e => e.1 = renderKey d rc.1)).isSome then s1
  else
    { s1 with
      stats := { s1.stats with preserved := s1.stats.preserved + 1 }
      ops := s1.ops ++ [Op.preservedUser (renderKey d rc.1)] }

/-- The user-file check of one managed directory: walk the destination
subdirectory for `.md` files and count as preserved every file whose manifest
key is not in the new manifest built so far. -/
def countPreserved (cursor : List String) (d : String) (s : LoopState) : LoopState :=
  (s.fs.mdFilesUnder (cursor ++ [d])).foldl (preservedStep d) s

/-- `fs.existsSync(sourceDir)` and the subsequent directory read: the
submodule content is an association from managed-directory name to its
listing. -/
def lookupSub (sub : List (String × List Entry)) (d : String) :
    Option (List Entry) :=
  (sub.find? (fun e => e.1 = d)).map (·.2)

/-- Processing of one managed directory: skip when the source directory is
missing, otherwise create the destination directory, copy the enumerated
files, then run the user-file check. -/
def processDir (cursor : List String) (sub : List (String × List Entry))
    (now : String) (s : LoopState) (d : String) :
    Except (String × LoopState) LoopState :=
  match lookupSub sub d with
  | none => .ok s
  | some es =>
    let s0 := { s with fs := s.fs.mkdirp (cursor ++ [d]) }
    match copyFiles cursor d now s0 (getMdFilesEntries es) with
    | .error e => .error e
    | .ok s1 => .ok (countPreserved cursor d s1)

/-- The main loop over `DIRS_TO_COPY`. -/
def processDirs (cursor : List String) (sub : List (String × List Entry))
    (now : String) :
    LoopState → List String → Except (String × LoopState) LoopState
  | s, [] => .ok s
  | s, d :: rest =>
    match processDir cursor sub now s d with
    | .error e => .error e
    | .ok s1 => processDirs cursor sub now s1 rest

/-- One step of the cleanup loop for one key of the previous manifest. -/
def cleanupStep (cursor : List String) (s1 : LoopState)
    (kv : String × ManifestEntry) : LoopState :=
  if (s1.manifestFiles.find? (fun e => e.1 = kv.1)).isSome then s1
  else if (s1.fs.read (normalizeSegs (cursor ++ splitPath kv.1))).isSome then
    { s1 with
      fs := s1.fs.erase (normalizeSegs (cursor ++ splitPath kv.1))
      stats := { s1.stats with removed := s1.stats.removed + 1 }
      ops := s1.ops ++ [Op.removedStale kv.1] }
  else s1

/-- The cleanup loop: for every key of the previous manifest absent from the
new manifest, delete the file at `path.join(CURSOR_DIR, key)` when it still
exists, counting it as removed. -/
def cleanupStale (cursor : List String) (prevFiles : List (String × ManifestEntry))
    (s : LoopState) : LoopState :=
  prevFiles.foldl (cleanupStep cursor) s

/-- The automatic rollback of the catch block: remove every destination file
this invocation newly created (tracked through `installedFiles`), then restore
the previous manifest from the backup file when one exists. -/
def rollbackFiles (fs : FS) (installed : List (List String × Bool)) : FS :=
  installed.foldl
    (fun fs1 pi =>
      if pi.2 && (fs1.read pi.1).isSome then fs1.erase pi.1 else fs1)
    fs

/-- `installWithPreservation` without the short-circuit: backup the previous
manifest, ensure the destination directory, process the managed directories,
clean up stale files, and persist the new manifest; on any error, roll back
newly created files, restore the manifest from backup, and re-throw. -/
def installBody (root : List String) (sub : List (String × List Entry))
    (currentHash : String) (currentTag : Option String) (now : String)
    (st : DestState) (prev : Option RawManifest) : InstallResult :=
  let cursor := root ++ [".cursor"]
  let st1 : DestState :=
    match prev with
    | some m => { st with backupFile := some (saveManifestFile m) }
    | none => st
  let s0 : LoopState :=
    { fs := st1.fs.mkdirp cursor
      manifestFiles := []
      stats := { updated := 0, added := 0, removed := 0, preserved := 0 }
      installed := []
      ops := [] }
  match processDirs cursor sub now s0 DIRS_TO_COPY with
  | .ok s1 =>
    let s2 :=
      match prev with
      | some m => cleanupStale cursor m.files s1
      | none => s1
    let newManifest : RawManifest :=
      { version := some "1.0.0"
        selectedLocation := none
        installedAt := some now
        submoduleGitHash := some currentHash
        submoduleGitTag := currentTag
        filesIsObject := true
        files := s2.manifestFiles }
    .ok { fs := s2.fs
          manifestFile := some (saveManifestFile newManifest)
          backupFile := st1.backupFile }
        s2.stats newManifest s2.ops
  | .error (msg, sErr) =>
    let fsRb := rollbackFiles sErr.fs sErr.installed
    .failed msg
      { fs := fsRb
        manifestFile :=
          match st1.backupFile with
          | some b => some b
          | none => st1.manifestFile
        backupFile := st1.backupFile }

/-- `installWithPreservation` from `src/unnamed/part_002`: load the previous
manifest, short-circuit when its stored git hash equals the current one,
otherwise run the installation body. -/
def installWithPreservation (root : List String) (sub : List (String × List Entry))
    (currentHash : String) (currentTag : Option String) (now : String)
    (st : DestState) : InstallResult :=
  let prev := loadManifest st.manifestFile
  match prev with
  | some m =>
    if m.submoduleGitHash = some currentHash then .skipped st
    else installBody root sub currentHash currentTag now st prev
  | none => installBody root sub currentHash currentTag now st none

/-! ## Empty-directory pruner (`removeEmptyDirectories`, `src/scripts/cursor-uninstall.mjs`) -/

/-- Immediate subdirectories of `d` present in the filesystem. -/
def subdirsOf (fs : FS) (d : List String) : List (List String) :=
  fs.dirs.filter (fun q => d.isPrefixOf q && q.length = d.length + 1)

/-- Immediate file entries of `d`. -/
def immediateFiles (fs : FS) (d : List String) : List (List String) :=
  fs.files.filterMap (fun e =>
    if d.isPrefixOf e.1 && e.1.length = d.length + 1 then some e.1 else none)

/-- `fs.readdirSync(dirPath).length === 0` after the recursive pass. -/
def dirIsEmpty (fs : FS) (d : List String) : Bool :=
  (subdirsOf fs d).isEmpty && (immediateFiles fs d).isEmpty

/-- `removeEmptyDirectories`, with explicit recursion fuel (the recursion depth
is bounded by the number of directories, since each nested call descends to a
strictly longer directory path that must exist): if the directory exists,
recurse depth-first into its current subdirectories, then remove it when it
ended up empty (removal failures are swallowed; in this pure model removal
always succeeds). -/
def pruneAux : Nat → FS → List String → FS
  | 0, fs, _ => fs
  | fuel + 1, fs, d =>
    if d ∈ fs.dirs then
      let fs1 := (subdirsOf fs d).foldl (fun acc q => pruneAux fuel acc q) fs
      if dirIsEmpty fs1 d then
        { fs1 with dirs := fs1.dirs.filter (fun q => ¬ (q = d)) }
      else fs1
    else fs

def removeEmptyDirectories (fs : FS) (d : List String) : FS :=
  pruneAux (fs.dirs.length + 1) fs d

/-! ## Location-aware installer decisions (`src/unnamed/part_003`) -/

/-- Whether the location-aware installer takes the `Already up to date`
short-circuit (`manifest && manifest.submoduleGitHash === currentHash`). -/
def shortCircuits3 (m : Option RawManifest) (currentHash : String) : Bool :=
  match m with
  | some mf => mf.submoduleGitHash = some currentHash
  | none => false

/-- Whether the location-aware installer reuses the saved installation
location (`manifest && manifest.selectedLocation`) instead of prompting. -/
def usesSavedLocation3 (m : Option RawManifest) : Bool :=
  match m with
  | some mf => !(mf.selectedLocation.getD "" = "")
  | none => false

/-! ## Basic lemmas about paths and keys -/

theorem cleanSegs_append (p q : List String) :
    cleanSegs (p ++ q) = (cleanSegs p && cleanSegs q) := by
  simp [cleanSegs, List.all_append]

theorem normAux_clean (p : List String) (hp : cleanSegs p = true) :
    ∀ acc, normAux acc p = acc.reverse ++ p := by
  induction p with
  | nil => intro acc; simp [normAux]
  | cons s rest ih =>
    intro acc
    simp only [cleanSegs, List.all_cons, Bool.and_eq_true] at hp
    obtain ⟨hs, hrest⟩ := hp
    have h0 : ¬(s = "" ∨ s = ".") := by
      intro h; rcases h with h | h <;> simp [cleanSeg, h] at hs
    have h2 : ¬(s = "..") := by
      intro h; simp [cleanSeg, h] at hs
    rw [normAux, if_neg h0, if_neg h2, ih hrest (s :: acc)]
    simp

theorem normalizeSegs_clean (p : List String) (hp : cleanSegs p = true) :
    normalizeSegs p = p := by
  simpa using normAux_clean p hp []

theorem renderPath_append (p q : List String) :
    renderPath (p ++ q) = renderPath p ++ renderPath q := by
  induction p with
  | nil => simp [renderPath]
  | cons s rest ih => simp [renderPath, ih, String.append_assoc]

theorem startsWithStr_append (b r : String) :
    startsWithStr (b ++ r) b = true := by
  simp [startsWithStr, List.isPrefixOf_iff_prefix, String.data_append]

theorem validatePath_clean (cursor tail : List String)
    (h1 : cleanSegs cursor = true) (h2 : cleanSegs tail = true) :
    validatePath (cursor ++ tail) cursor = .ok (cursor ++ tail) := by
  have hall : cleanSegs (cursor ++ tail) = true := by
    rw [cleanSegs_append, h1, h2]; rfl
  simp only [validatePath, normalizeSegs_clean _ hall, normalizeSegs_clean _ h1,
    renderPath_append, startsWithStr_append, if_true]

theorem splitSegsAux_no_slash (u : List Char) (hu : '/' ∉ u) :
    ∀ cur rest, splitSegsAux cur (u ++ rest) = splitSegsAux (u.reverse ++ cur) rest := by
  induction u with
  | nil => intro cur rest; simp
  | cons c u' ih =>
    intro cur rest
    simp only [List.mem_cons, not_or] at hu
    rw [List.cons_append, splitSegsAux, if_neg (fun h => hu.1 h.symm), ih hu.2]
    simp

theorem string_eta (s : String) : String.mk s.data = s := rfl

theorem splitPath_joinSegs (l : List String) (hne : l ≠ [])
    (hcl : ∀ s ∈ l, '/' ∉ s.data) : splitPath (joinSegs l) = l := by
  induction l with
  | nil => exact absurd rfl hne
  | cons s rest ih =>
    match rest, ih with
    | [], _ =>
      have hs : '/' ∉ s.data := hcl s (by simp)
      have := splitSegsAux_no_slash s.data hs [] []
      simp only [List.append_nil] at this
      simp [splitPath, joinSegs, this, splitSegsAux, string_eta]
    | t :: rest', ih =>
      have hs : '/' ∉ s.data := hcl s (by simp)
      have hdata : (joinSegs (s :: t :: rest')).data
          = s.data ++ '/' :: (joinSegs (t :: rest')).data := by
        show (s ++ "/" ++ joinSegs (t :: rest')).data = _
        simp [String.data_append]
      rw [splitPath, hdata, splitSegsAux_no_slash s.data hs]
      rw [splitSegsAux, if_pos rfl]
      have htail := ih (by simp) (fun x hx => hcl x (List.mem_cons_of_mem s hx))
      rw [splitPath] at htail
      simp [htail, string_eta]

theorem cleanSegs_mem {l : List String} {s : String}
    (h : cleanSegs l = true) (hs : s ∈ l) : cleanSeg s = true := by
  simp only [cleanSegs, List.all_eq_true] at h
  exact h s hs

theorem cleanSeg_no_slash {s : String} (h : cleanSeg s = true) : '/' ∉ s.data := by
  intro hmem
  simp [cleanSeg, hmem] at h

theorem splitPath_renderKey (d : String) (rel : List String)
    (hd : cleanSeg d = true) (hrel : cleanSegs rel = true) :
    splitPath (renderKey d rel) = d :: rel := by
  apply splitPath_joinSegs _ (by simp)
  intro s hs
  rcases List.mem_cons.mp hs with h | h
  · exact h ▸ cleanSeg_no_slash hd
  · exact cleanSeg_no_slash (cleanSegs_mem hrel h)

theorem renderKey_inj {d d' : String} {rel rel' : List String}
    (hd : cleanSeg d = true) (hrel : cleanSegs rel = true)
    (hd' : cleanSeg d' = true) (hrel' : cleanSegs rel' = true)
    (h : renderKey d rel = renderKey d' rel') : d = d' ∧ rel = rel' := by
  have h1 := splitPath_renderKey d rel hd hrel
  have h2 := splitPath_renderKey d' rel' hd' hrel'
  rw [h, h2] at h1
  exact ⟨(List.cons.injEq _ _ _ _ ▸ h1).1.symm, (List.cons.injEq _ _ _ _ ▸ h1).2.symm⟩

/-! ## Basic lemmas about the filesystem model -/

theorem find?_filter_of_imp {α : Type} (l : List α) (pred keep : α → Bool)
    (h : ∀ e, pred e = true → keep e = true) :
    (l.filter keep).find? pred = l.find? pred := by
  induction l with
  | nil => simp
  | cons x xs ih =>
    by_cases hk : keep x = true
    · rw [List.filter_cons_of_pos hk]
      by_cases hp : pred x = true
      · rw [List.find?_cons_of_pos _ hp, List.find?_cons_of_pos _ hp]
      · rw [List.find?_cons_of_neg _ (by simp [hp]), List.find?_cons_of_neg _ (by simp [hp]), ih]
    · have hp : ¬ pred x = true := fun hpp => hk (h x hpp)
      rw [List.filter_cons_of_neg (by simp [hk]), List.find?_cons_of_neg _ (by simp [hp]), ih]

theorem FS.read_write (fs : FS) (p : List String) (c : String) :
    (fs.write p c).read p = some c := by
  simp [FS.read, FS.write, List.find?_cons_of_pos]

theorem FS.read_write_ne (fs : FS) (p : List String) (c : String) (q : List String)
    (h : q ≠ p) : (fs.write p c).read q = fs.read q := by
  simp only [FS.read, FS.write]
  rw [List.find?_cons_of_neg, find?_filter_of_imp]
  · intro e he
    simp only [decide_eq_true_eq] at he ⊢
    simp [he, fun hh : q = p => h hh]
  · simp only [decide_eq_true_eq]
    exact fun hh => h hh.symm

theorem FS.read_erase (fs : FS) (p : List String) : (fs.erase p).read p = none := by
  simp only [FS.read, FS.erase]
  rw [List.find?_eq_none.mpr]
  · rfl
  · intro e he
    simp only [List.mem_filter, decide_eq_true_eq] at he
    simp [he.2]

theorem FS.read_erase_ne (fs : FS) (p q : List String) (h : q ≠ p) :
    (fs.erase p).read q = fs.read q := by
  simp only [FS.read, FS.erase]
  rw [find?_filter_of_imp]
  intro e he
  simp only [decide_eq_true_eq] at he ⊢
  simp [he, fun hh : q = p => h hh]

theorem FS.read_mkdirp (fs : FS) (p q : List String) :
    (fs.mkdirp p).read q = fs.read q := rfl

theorem FS.dirs_write (fs : FS) (p : List String) (c : String) :
    (fs.write p c).dirs = fs.dirs := rfl

theorem FS.dirs_erase (fs : FS) (p : List String) : (fs.erase p).dirs = fs.dirs := rfl

theorem FS.mkdirp_dirs_mono (fs : FS) (p : List String) {d : List String}
    (h : d ∈ fs.dirs) : d ∈ (fs.mkdirp p).dirs := by
  simp [FS.mkdirp, h]

/-- A file is found by `mdFilesUnder d` exactly when a file exists strictly
below `d` whose name has the `.md` extension. -/
theorem mem_mdFilesUnder (fs : FS) (d : List String) (q : List String) :
    (∃ c, (q, c) ∈ fs.mdFilesUnder d) ↔
      ∃ p c, (p, c) ∈ fs.files ∧ d.isPrefixOf p = true ∧ d.length < p.length ∧
        isMdName (p.getLastD "") = true ∧ q = p.drop d.length := by
  constructor
  · rintro ⟨c, hc⟩
    simp only [FS.mdFilesUnder, List.mem_filterMap] at hc
    obtain ⟨e, he, hcond⟩ := hc
    by_cases hb : (d.isPrefixOf e.1 && d.length < e.1.length && isMdName (e.1.getLastD "")) = true
    · rw [if_pos hb] at hcond
      simp only [Bool.and_eq_true, decide_eq_true_eq] at hb
      obtain ⟨⟨hpre, hlen⟩, hmd⟩ := hb
      refine ⟨e.1, e.2, he, hpre, hlen, hmd, ?_⟩
      cases hcond' : hcond
      simp_all
    · rw [if_neg hb] at hcond
      exact absurd hcond (by simp)
  · rintro ⟨p, c, hmem, hpre, hlen, hmd, hq⟩
    refine ⟨c, ?_⟩
    simp only [FS.mdFilesUnder, List.mem_filterMap]
    refine ⟨(p, c), hmem, ?_⟩
    rw [if_pos (by simp [hpre, hlen, ← List.getLastD_eq_getLast?, hmd])]
    simp [hq]

/-! ## Lemmas about the source enumeration -/

/-- Every enumerated relative path starts with the name of the entry it came
from. -/
def MdHead1 (e : Entry) : Prop :=
  ∀ rc ∈ getMdFilesEntry e, ∃ t, rc.1 = e.name :: t

def MdHead2 (es : List Entry) : Prop :=
  ∀ rc ∈ getMdFilesEntries es, ∃ e, e ∈ es ∧ ∃ t, rc.1 = e.name :: t

theorem mdHead2_all : ∀ es, MdHead2 es := by
  refine getMdFilesEntries.induct MdHead1 MdHead2 ?_ ?_ ?_ ?_ ?_ ?_
  · intro n rc h
    simp [getMdFilesEntry] at h
  · intro n c hmd rc h
    simp only [getMdFilesEntry, if_pos hmd, List.mem_singleton] at h
    exact ⟨[], by simp [h, Entry.name]⟩
  · intro n c hmd rc h
    simp [getMdFilesEntry, hmd] at h
  · intro n es ih rc h
    simp only [getMdFilesEntry, List.mem_map] at h
    obtain ⟨r, _, hr⟩ := h
    exact ⟨r.1, by simp [← hr, Entry.name]⟩
  · intro rc h
    simp [getMdFilesEntries] at h
  · intro e rest ih1 ih2 rc h
    simp only [getMdFilesEntries, List.mem_append] at h
    rcases h with h | h
    · obtain ⟨t, ht⟩ := ih1 rc h
      exact ⟨e, by simp, t, ht⟩
    · obtain ⟨e', he', t, ht⟩ := ih2 rc h
      exact ⟨e', by simp [he'], t, ht⟩

theorem mdHead1_all : ∀ e, MdHead1 e := by
  intro e rc h
  have h2 := mdHead2_all [e] rc (by simp [getMdFilesEntries, h])
  obtain ⟨e', he', t, ht⟩ := h2
  simp only [List.mem_singleton] at he'
  exact ⟨t, he' ▸ ht⟩

/-- Enumerated relative paths of a well-formed tree are clean, nonempty, and
name an `.md` file. -/
def MdClean1 (e : Entry) : Prop :=
  WFEntry e = true → ∀ rc ∈ getMdFilesEntry e,
    cleanSegs rc.1 = true ∧ rc.1 ≠ [] ∧ isMdName (rc.1.getLastD "") = true

def MdClean2 (es : List Entry) : Prop :=
  WFEntries es = true → ∀ rc ∈ getMdFilesEntries es,
    cleanSegs rc.1 = true ∧ rc.1 ≠ [] ∧ isMdName (rc.1.getLastD "") = true

theorem mdClean2_all : ∀ es, MdClean2 es := by
  refine getMdFilesEntries.induct MdClean1 MdClean2 ?_ ?_ ?_ ?_ ?_ ?_
  · intro n _ rc h
    simp [getMdFilesEntry] at h
  · intro n c hmd hwf rc h
    simp only [getMdFilesEntry, if_pos hmd, List.mem_singleton] at h
    subst h
    simp only [WFEntry] at hwf
    exact ⟨by simp [cleanSegs, hwf], by simp, by simpa using hmd⟩
  · intro n c hmd _ rc h
    simp [getMdFilesEntry, hmd] at h
  · intro n es ih hwf rc h
    simp only [WFEntry, Bool.and_eq_true] at hwf
    simp only [getMdFilesEntry, List.mem_map] at h
    obtain ⟨r, hrmem, hr⟩ := h
    obtain ⟨hc, hne, hmd⟩ := ih hwf.2 r hrmem
    refine ⟨?_, ?_, ?_⟩
    · rw [← hr]
      simp [cleanSegs, hwf.1, List.all_eq_true]
      intro s hs
      have := hc
      simp only [cleanSegs, List.all_eq_true] at this
      exact this s hs
    · rw [← hr]; simp
    · rw [← hr]
      simp only [List.getLastD_eq_getLast?, List.getLast?_cons]
      rcases r1 : r.1 with _ | ⟨a, l⟩
      · exact absurd r1 hne
      · rw [r1] at hmd
        simpa [List.getLastD_eq_getLast?, List.getLast?_cons] using hmd
  · intro _ rc h
    simp [getMdFilesEntries] at h
  · intro e rest ih1 ih2 hwf rc h
    simp only [WFEntries, Bool.and_eq_true] at hwf
    simp only [getMdFilesEntries, List.mem_append] at h
    rcases h with h | h
    · exact ih1 hwf.1.1 rc h
    · exact ih2 hwf.2 rc h

theorem mdClean1_all : ∀ e, MdClean1 e := by
  intro e hwf rc h
  exact mdClean2_all [e] (by simp [WFEntries, hwf]) rc (by simp [getMdFilesEntries, h])

/-- Enumerated relative paths of a well-formed tree are pairwise distinct. -/
def MdNodup1 (e : Entry) : Prop :=
  WFEntry e = true → ((getMdFilesEntry e).map (·.1)).Nodup

def MdNodup2 (es : List Entry) : Prop :=
  WFEntries es = true → ((getMdFilesEntries es).map (·.1)).Nodup

theorem mdNodup2_all : ∀ es, MdNodup2 es := by
  refine getMdFilesEntries.induct MdNodup1 MdNodup2 ?_ ?_ ?_ ?_ ?_ ?_
  · intro n _
    simp [getMdFilesEntry]
  · intro n c hmd _
    simp [getMdFilesEntry, hmd]
  · intro n c hmd _
    simp [getMdFilesEntry, hmd]
  · intro n es ih hwf
    simp only [WFEntry, Bool.and_eq_true] at hwf
    have h1 := ih hwf.2
    simp only [getMdFilesEntry]
    rw [List.map_map]
    have heq : (getMdFilesEntries es).map ((·.1) ∘ (fun rc => (n :: rc.1, rc.2)))
        = ((getMdFilesEntries es).map (·.1)).map (fun r => n :: r) := by
      rw [List.map_map]; rfl
    rw [heq]
    exact h1.map (fun a b hab => by injection hab)
  · intro _
    simp [getMdFilesEntries]
  · intro e rest ih1 ih2 hwf
    simp only [WFEntries, Bool.and_eq_true] at hwf
    obtain ⟨⟨hwfe, hname⟩, hwfrest⟩ := hwf
    simp only [getMdFilesEntries, List.map_append]
    rw [List.nodup_append]
    refine ⟨ih1 hwfe, ih2 hwfrest, ?_⟩
    intro a ha hb
    simp only [List.mem_map] at ha hb
    obtain ⟨rc1, hm1, he1⟩ := ha
    obtain ⟨rc2, hm2, he2⟩ := hb
    obtain ⟨t1, ht1⟩ := mdHead1_all e rc1 hm1
    obtain ⟨e2, he2mem, t2, ht2⟩ := mdHead2_all rest rc2 hm2
    have : e.name = e2.name := by
      have : a = e.name :: t1 := he1 ▸ ht1
      have h2 : a = e2.name :: t2 := he2 ▸ ht2
      rw [this] at h2
      injection h2
    have hmem : e.name ∈ rest.map Entry.name :=
      this ▸ List.mem_map_of_mem Entry.name he2mem
    simp [List.elem_iff, hmem] at hname

theorem mdNodup1_all : ∀ e, MdNodup1 e := by
  intro e hwf
  have := mdNodup2_all [e] (by simp [WFEntries, hwf])
  simpa [getMdFilesEntries] using this

/-! ## Lemmas about the copy loop -/

/-- The manifest entries recorded for the enumerated files of one managed
directory. -/
def mfEntries (d : String) (now : String) (L : List (List String × String)) :
    List (String × ManifestEntry) :=
  L.map fun rc =>
    (renderKey d rc.1,
     { source := joinSegs ("everything-claude-code" :: d :: rc.1)
       installedAt := now
       checksum := calculateChecksum rc.2 })

/-- The state after one successful copy of a clean relative path. -/
def copyStepState (cursor : List String) (d : String) (now : String)
    (s : LoopState) (rc : List String × String) : LoopState :=
  { fs := (s.fs.mkdirp (cursor ++ d :: rc.1).dropLast).write (cursor ++ d :: rc.1) rc.2
    manifestFiles := s.manifestFiles ++ mfEntries d now [rc]
    stats :=
      if (s.fs.read (cursor ++ d :: rc.1)).isSome then
        { s.stats with updated := s.stats.updated + 1 }
      else { s.stats with added := s.stats.added + 1 }
    installed := s.installed ++ [(cursor ++ d :: rc.1, !(s.fs.read (cursor ++ d :: rc.1)).isSome)]
    ops := s.ops ++ [Op.copied (renderKey d rc.1) ((s.fs.read (cursor ++ d :: rc.1)).isSome)] }

theorem copyOne_clean (cursor : List String) (d : String) (now : String)
    (s : LoopState) (rc : List String × String)
    (hcur : cleanSegs cursor = true) (hd : cleanSeg d = true)
    (hrel : cleanSegs rc.1 = true) :
    copyOne cursor d now s rc = .ok (copyStepState cursor d now s rc) := by
  have hv := validatePath_clean cursor (d :: rc.1) hcur
    (by simp [cleanSegs, hd]; simpa [cleanSegs] using hrel)
  simp [copyOne, hv, mfEntries, copyStepState]

theorem copyFiles_cons_clean (cursor : List String) (d : String) (now : String)
    (s : LoopState) (rc : List String × String) (rest : List (List String × String))
    (hcur : cleanSegs cursor = true) (hd : cleanSeg d = true)
    (hrel : cleanSegs rc.1 = true) :
    copyFiles cursor d now s (rc :: rest)
      = copyFiles cursor d now (copyStepState cursor d now s rc) rest := by
  rw [copyFiles, copyOne_clean cursor d now s rc hcur hd hrel]

theorem copyStepState_read (cursor : List String) (d : String) (now : String)
    (s : LoopState) (rc : List String × String) (p : List String) :
    (copyStepState cursor d now s rc).fs.read p
      = if p = cursor ++ d :: rc.1 then some rc.2 else s.fs.read p := by
  by_cases h : p = cursor ++ d :: rc.1
  · subst h
    simp [copyStepState, FS.read_write]
  · rw [if_neg h]
    unfold copyStepState
    rw [FS.read_write_ne _ _ _ _ h, FS.read_mkdirp]

theorem copyFiles_ok (cursor : List String) (d : String) (now : String)
    (hcur : cleanSegs cursor = true) (hd : cleanSeg d = true) :
    ∀ (L : List (List String × String)) (s : LoopState),
      (∀ rc ∈ L, cleanSegs rc.1 = true) →
      ∃ s', copyFiles cursor d now s L = .ok s' := by
  intro L
  induction L with
  | nil => intro s _; exact ⟨s, rfl⟩
  | cons rc rest ih =>
    intro s hcl
    obtain ⟨s', hs'⟩ := ih (copyStepState cursor d now s rc)
      (fun rc' h => hcl rc' (List.mem_cons_of_mem rc h))
    exact ⟨s', by
      rw [copyFiles_cons_clean cursor d now s rc rest hcur hd (hcl rc (by simp))]
      exact hs'⟩

theorem pathOf_inj (cursor : List String) (d : String)
    {r1 r2 : List String} (h : cursor ++ d :: r1 = cursor ++ d :: r2) : r1 = r2 := by
  have := List.append_cancel_left h
  injection this

theorem copyFiles_read_ne (cursor : List String) (d : String) (now : String)
    (hcur : cleanSegs cursor = true) (hd : cleanSeg d = true) :
    ∀ (L : List (List String × String)) (s s' : LoopState),
      (∀ rc ∈ L, cleanSegs rc.1 = true) →
      copyFiles cursor d now s L = .ok s' →
      ∀ p, (∀ rc ∈ L, p ≠ cursor ++ d :: rc.1) →
      s'.fs.read p = s.fs.read p := by
  intro L
  induction L with
  | nil =>
    intro s s' _ hok p _
    cases hok
    rfl
  | cons rc rest ih =>
    intro s s' hcl hok p hp
    rw [copyFiles_cons_clean cursor d now s rc rest hcur hd (hcl rc (by simp))] at hok
    have := ih (copyStepState cursor d now s rc) s'
      (fun rc' h => hcl rc' (List.mem_cons_of_mem rc h)) hok p
      (fun rc' h => hp rc' (List.mem_cons_of_mem rc h))
    rw [this, copyStepState_read, if_neg (hp rc (by simp))]

theorem copyFiles_read_mem (cursor : List String) (d : String) (now : String)
    (hcur : cleanSegs cursor = true) (hd : cleanSeg d = true) :
    ∀ (L : List (List String × String)) (s s' : LoopState),
      (∀ rc ∈ L, cleanSegs rc.1 = true) →
      (L.map (·.1)).Nodup →
      copyFiles cursor d now s L = .ok s' →
      ∀ rc ∈ L, s'.fs.read (cursor ++ d :: rc.1) = some rc.2 := by
  intro L
  induction L with
  | nil =>
    intro s s' _ _ _ rc h
    simp at h
  | cons rc0 rest ih =>
    intro s s' hcl hnd hok rc hmem
    rw [copyFiles_cons_clean cursor d now s rc0 rest hcur hd (hcl rc0 (by simp))] at hok
    simp only [List.map_cons, List.nodup_cons] at hnd
    rcases List.mem_cons.mp hmem with h | h
    · rw [h]
      have := copyFiles_read_ne cursor d now hcur hd rest
        (copyStepState cursor d now s rc0) s'
        (fun rc' hh => hcl rc' (List.mem_cons_of_mem rc0 hh)) hok
        (cursor ++ d :: rc0.1)
        (fun rc' hh heq => hnd.1 (by
          rw [pathOf_inj cursor d heq]
          exact List.mem_map_of_mem (·.1) hh))
      rw [this, copyStepState_read, if_pos rfl]
    · exact ih (copyStepState cursor d now s rc0) s'
        (fun rc' hh => hcl rc' (List.mem_cons_of_mem rc0 hh)) hnd.2 hok rc h

theorem copyFiles_manifest (cursor : List String) (d : String) (now : String)
    (hcur : cleanSegs cursor = true) (hd : cleanSeg d = true) :
    ∀ (L : List (List String × String)) (s s' : LoopState),
      (∀ rc ∈ L, cleanSegs rc.1 = true) →
      copyFiles cursor d now s L = .ok s' →
      s'.manifestFiles = s.manifestFiles ++ mfEntries d now L := by
  intro L
  induction L with
  | nil =>
    intro s s' _ hok
    cases hok
    simp [mfEntries]
  | cons rc rest ih =>
    intro s s' hcl hok
    rw [copyFiles_cons_clean cursor d now s rc rest hcur hd (hcl rc (by simp))] at hok
    rw [ih (copyStepState cursor d now s rc) s'
      (fun rc' h => hcl rc' (List.mem_cons_of_mem rc h)) hok]
    simp [copyStepState, mfEntries]

theorem copyFiles_ops (cursor : List String) (d : String) (now : String)
    (hcur : cleanSegs cursor = true) (hd : cleanSeg d = true) :
    ∀ (L : List (List String × String)) (s s' : LoopState),
      (∀ rc ∈ L, cleanSegs rc.1 = true) →
      (L.map (·.1)).Nodup →
      copyFiles cursor d now s L = .ok s' →
      s'.ops = s.ops ++ L.map
        (fun rc => Op.copied (renderKey d rc.1) ((s.fs.read (cursor ++ d :: rc.1)).isSome)) := by
  intro L
  induction L with
  | nil =>
    intro s s' _ _ hok
    cases hok
    simp
  | cons rc rest ih =>
    intro s s' hcl hnd hok
    rw [copyFiles_cons_clean cursor d now s rc rest hcur hd (hcl rc (by simp))] at hok
    simp only [List.map_cons, List.nodup_cons] at hnd
    rw [ih (copyStepState cursor d now s rc) s'
      (fun rc' h => hcl rc' (List.mem_cons_of_mem rc h)) hnd.2 hok]
    have hmapeq : rest.map
        (fun rc' => Op.copied (renderKey d rc'.1)
          (((copyStepState cursor d now s rc).fs.read (cursor ++ d :: rc'.1)).isSome))
        = rest.map
        (fun rc' => Op.copied (renderKey d rc'.1) ((s.fs.read (cursor ++ d :: rc'.1)).isSome)) := by
      apply List.map_congr_left
      intro rc' h
      rw [copyStepState_read, if_neg (fun heq => hnd.1 (by
        rw [← pathOf_inj cursor d heq]
        exact List.mem_map_of_mem (·.1) h))]
    rw [hmapeq]
    simp [copyStepState]

theorem copyFiles_installed (cursor : List String) (d : String) (now : String)
    (hcur : cleanSegs cursor = true) (hd : cleanSeg d = true) :
    ∀ (L : List (List String × String)) (s s' : LoopState),
      (∀ rc ∈ L, cleanSegs rc.1 = true) →
      (L.map (·.1)).Nodup →
      copyFiles cursor d now s L = .ok s' →
      s'.installed = s.installed ++ L.map
        (fun rc => (cursor ++ d :: rc.1, !(s.fs.read (cursor ++ d :: rc.1)).isSome)) := by
  intro L
  induction L with
  | nil =>
    intro s s' _ _ hok
    cases hok
    simp
  | cons rc rest ih =>
    intro s s' hcl hnd hok
    rw [copyFiles_cons_clean cursor d now s rc rest hcur hd (hcl rc (by simp))] at hok
    simp only [List.map_cons, List.nodup_cons] at hnd
    rw [ih (copyStepState cursor d now s rc) s'
      (fun rc' h => hcl rc' (List.mem_cons_of_mem rc h)) hnd.2 hok]
    have hmapeq : rest.map
        (fun rc' => (cursor ++ d :: rc'.1,
          !((copyStepState cursor d now s rc).fs.read (cursor ++ d :: rc'.1)).isSome))
        = rest.map
        (fun rc' => (cursor ++ d :: rc'.1, !(s.fs.read (cursor ++ d :: rc'.1)).isSome)) := by
      apply List.map_congr_left
      intro rc' h
      rw [copyStepState_read, if_neg (fun heq => hnd.1 (by
        rw [← pathOf_inj cursor d heq]
        exact List.mem_map_of_mem (·.1) h))]
    rw [hmapeq]
    simp [copyStepState]

theorem copyFiles_dirs_mono (cursor : List String) (d : String) (now : String)
    (hcur : cleanSegs cursor = true) (hd : cleanSeg d = true) :
    ∀ (L : List (List String × String)) (s s' : LoopState),
      (∀ rc ∈ L, cleanSegs rc.1 = true) →
      copyFiles cursor d now s L = .ok s' →
      ∀ q ∈ s.fs.dirs, q ∈ s'.fs.dirs := by
  intro L
  induction L with
  | nil =>
    intro s s' _ hok q hq
    cases hok
    exact hq
  | cons rc rest ih =>
    intro s s' hcl hok q hq
    rw [copyFiles_cons_clean cursor d now s rc rest hcur hd (hcl rc (by simp))] at hok
    refine ih (copyStepState cursor d now s rc) s'
      (fun rc' h => hcl rc' (List.mem_cons_of_mem rc h)) hok q ?_
    show q ∈ ((s.fs.mkdirp _).write _ _).dirs
    rw [FS.dirs_write]
    exact FS.mkdirp_dirs_mono _ _ hq

/-! ## Lemmas about the user-file check and the cleanup loop -/

theorem preservedFold_fields (d : String) :
    ∀ (l : List (List String × String)) (s : LoopState),
      ((l.foldl (preservedStep d) s).fs = s.fs ∧
       (l.foldl (preservedStep d) s).manifestFiles = s.manifestFiles ∧
       (l.foldl (preservedStep d) s).installed = s.installed) := by
  intro l
  induction l with
  | nil => intro s; exact ⟨rfl, rfl, rfl⟩
  | cons rc rest ih =>
    intro s
    have hstep : ((preservedStep d s rc).fs = s.fs ∧
        (preservedStep d s rc).manifestFiles = s.manifestFiles ∧
        (preservedStep d s rc).installed = s.installed) := by
      unfold preservedStep
      split <;> exact ⟨rfl, rfl, rfl⟩
    have := ih (preservedStep d s rc)
    rw [List.foldl_cons]
    exact ⟨this.1.trans hstep.1, (this.2.1).trans hstep.2.1, (this.2.2).trans hstep.2.2⟩

theorem preservedFold_ops_char (d : String) (k : String) :
    ∀ (l : List (List String × String)) (s : LoopState),
      (Op.preservedUser k ∈ (l.foldl (preservedStep d) s).ops ↔
        Op.preservedUser k ∈ s.ops ∨
          ∃ rc ∈ l, k = renderKey d rc.1 ∧
            ¬ ((s.manifestFiles.find? (fun e => e.1 = renderKey d rc.1)).isSome = true)) := by
  intro l
  induction l with
  | nil =>
    intro s
    simp
  | cons rc rest ih =>
    intro s
    rw [List.foldl_cons, ih (preservedStep d s rc)]
    have hmf : (preservedStep d s rc).manifestFiles = s.manifestFiles := by
      unfold preservedStep; split <;> rfl
    rw [hmf]
    constructor
    · rintro (hop | ⟨rc', hrc', hk, hfind⟩)
      · unfold preservedStep at hop
        split at hop
        · exact Or.inl hop
        · rename_i hfind0
          simp only [List.mem_append, List.mem_singleton] at hop
          rcases hop with hop | hop
          · exact Or.inl hop
          · have hh : k = renderKey d rc.1 := by injection hop
            exact Or.inr ⟨rc, by simp, hh, by rw [← hh] at hfind0; rw [← hh]; exact hfind0⟩
      · exact Or.inr ⟨rc', List.mem_cons_of_mem rc hrc', hk, hfind⟩
    · rintro (hop | ⟨rc', hrc', hk, hfind⟩)
      · left
        unfold preservedStep
        split
        · exact hop
        · simp [hop]
      · rcases List.mem_cons.mp hrc' with h | h
        · left
          unfold preservedStep
          rw [h] at hk hfind
          split
          · rename_i hfind0
            rw [← hk] at hfind0
            exact absurd hfind0 (hk ▸ hfind)
          · simp [hk]
        · exact Or.inr ⟨rc', h, hk, hfind⟩

theorem cleanupFold_fields (cursor : List String) :
    ∀ (l : List (String × ManifestEntry)) (s : LoopState),
      ((l.foldl (cleanupStep cursor) s).manifestFiles = s.manifestFiles ∧
       (l.foldl (cleanupStep cursor) s).installed = s.installed ∧
       (l.foldl (cleanupStep cursor) s).fs.dirs = s.fs.dirs) := by
  intro l
  induction l with
  | nil => intro s; exact ⟨rfl, rfl, rfl⟩
  | cons kv rest ih =>
    intro s
    have hstep : ((cleanupStep cursor s kv).manifestFiles = s.manifestFiles ∧
        (cleanupStep cursor s kv).installed = s.installed ∧
        (cleanupStep cursor s kv).fs.dirs = s.fs.dirs) := by
      unfold cleanupStep
      split
      · exact ⟨rfl, rfl, rfl⟩
      · split
        · exact ⟨rfl, rfl, FS.dirs_erase _ _⟩
        · exact ⟨rfl, rfl, rfl⟩
    have := ih (cleanupStep cursor s kv)
    rw [List.foldl_cons]
    exact ⟨this.1.trans hstep.1, this.2.1.trans hstep.2.1, this.2.2.trans hstep.2.2⟩

theorem cleanupFold_preservedUser (cursor : List String) (k : String) :
    ∀ (l : List (String × ManifestEntry)) (s : LoopState),
      (Op.preservedUser k ∈ (l.foldl (cleanupStep cursor) s).ops ↔
        Op.preservedUser k ∈ s.ops) := by
  intro l
  induction l with
  | nil => intro s; exact Iff.rfl
  | cons kv rest ih =>
    intro s
    rw [List.foldl_cons, ih (cleanupStep cursor s kv)]
    unfold cleanupStep
    split
    · exact Iff.rfl
    · split
      · simp
      · exact Iff.rfl

theorem cleanupFold_copied (cursor : List String) (k : String) (b : Bool) :
    ∀ (l : List (String × ManifestEntry)) (s : LoopState),
      (Op.copied k b ∈ (l.foldl (cleanupStep cursor) s).ops ↔
        Op.copied k b ∈ s.ops) := by
  intro l
  induction l with
  | nil => intro s; exact Iff.rfl
  | cons kv rest ih =>
    intro s
    rw [List.foldl_cons, ih (cleanupStep cursor s kv)]
    unfold cleanupStep
    split
    · exact Iff.rfl
    · split
      · simp
      · exact Iff.rfl

theorem cleanupFold_read_ne (cursor : List String) :
    ∀ (l : List (String × ManifestEntry)) (s : LoopState) (p : List String),
      (∀ kv ∈ l, p ≠ normalizeSegs (cursor ++ splitPath kv.1)) →
      (l.foldl (cleanupStep cursor) s).fs.read p = s.fs.read p := by
  intro l
  induction l with
  | nil => intro s p _; rfl
  | cons kv rest ih =>
    intro s p hp
    rw [List.foldl_cons,
      ih (cleanupStep cursor s kv) p (fun kv' h => hp kv' (List.mem_cons_of_mem kv h))]
    unfold cleanupStep
    split
    · rfl
    · split
      · exact FS.read_erase_ne _ _ _ (hp kv (by simp))
      · rfl

/-- The cleanup loop only erases files: it never creates one. -/
theorem cleanupFold_read_none (cursor : List String) :
    ∀ (l : List (String × ManifestEntry)) (s : LoopState) (p : List String),
      s.fs.read p = none → (l.foldl (cleanupStep cursor) s).fs.read p = none := by
  intro l
  induction l with
  | nil => intro s p h; exact h
  | cons kv rest ih =>
    intro s p h
    rw [List.foldl_cons]
    refine ih (cleanupStep cursor s kv) p ?_
    unfold cleanupStep
    split
    · exact h
    · split
      · by_cases hpq : p = normalizeSegs (cursor ++ splitPath kv.1)
        · rw [hpq]; exact FS.read_erase _ _
        · rw [FS.read_erase_ne _ _ _ hpq]; exact h
      · exact h

/-! ## Lemmas about failures and the automatic rollback -/

theorem validatePath_error_form (f b : List String) (e : String)
    (h : validatePath f b = .error e) :
    ∃ fp, e = "Path traversal detected: " ++ fp := by
  simp only [validatePath] at h
  split at h
  · exact absurd h (by simp)
  · exact ⟨renderPath f, by injection h with hh; exact hh.symm⟩

theorem copyOne_cases (cursor : List String) (d : String) (now : String)
    (s : LoopState) (rc : List String × String) :
    (∃ dp, copyOne cursor d now s rc = .ok
      { fs := (s.fs.mkdirp dp.dropLast).write dp rc.2
        manifestFiles := s.manifestFiles ++ mfEntries d now [rc]
        stats :=
          if (s.fs.read dp).isSome then
            { s.stats with updated := s.stats.updated + 1 }
          else { s.stats with added := s.stats.added + 1 }
        installed := s.installed ++ [(dp, !(s.fs.read dp).isSome)]
        ops := s.ops ++ [Op.copied (renderKey d rc.1) ((s.fs.read dp).isSome)] }) ∨
    (∃ msg, copyOne cursor d now s rc = .error (msg, s) ∧
      ∃ fp, msg = "Path traversal detected: " ++ fp) := by
  unfold copyOne
  cases hv : validatePath (cursor ++ d :: rc.1) cursor with
  | error e =>
    exact Or.inr ⟨e, rfl, validatePath_error_form _ _ _ hv⟩
  | ok dp =>
    exact Or.inl ⟨dp, by simp [mfEntries]⟩

/-- Invariant: any file existing now that did not exist in `base` was recorded
in `installedFiles` with `isNew = true`. -/
def NewTracked (base : FS) (s : LoopState) : Prop :=
  ∀ p, base.read p = none → (s.fs.read p).isSome = true → (p, true) ∈ s.installed

theorem newTracked_copyOne (cursor : List String) (d : String) (now : String)
    (base : FS) (s s1 : LoopState) (rc : List String × String)
    (hbase : ∀ p, base.read p = none → (s.fs.read p).isSome = true → (p, true) ∈ s.installed)
    (hok : copyOne cursor d now s rc = .ok s1) :
    NewTracked base s1 := by
  rcases copyOne_cases cursor d now s rc with ⟨dp, heq⟩ | ⟨msg, heq, _⟩
  · rw [heq] at hok
    injection hok with hok
    intro p hpb hps
    rw [← hok]
    by_cases hpd : p = dp
    · subst hpd
      by_cases hex : (s.fs.read p).isSome = true
      · have := hbase p hpb hex
        simp only []
        exact List.mem_append_left _ this
      · simp only []
        refine List.mem_append_right _ ?_
        simp only [List.mem_singleton]
        have : (s.fs.read p).isSome = false := by
          cases hv : (s.fs.read p).isSome
          · rfl
          · exact absurd hv hex
        rw [this]
        rfl
    · rw [← hok] at hps
      simp only [] at hps
      rw [FS.read_write_ne _ _ _ _ hpd, FS.read_mkdirp] at hps
      simp only []
      exact List.mem_append_left _ (hbase p hpb hps)
  · rw [heq] at hok
    exact absurd hok (by simp)

theorem newTracked_copyFiles (cursor : List String) (d : String) (now : String)
    (base : FS) :
    ∀ (L : List (List String × String)) (s : LoopState),
      NewTracked base s →
      (∀ s', copyFiles cursor d now s L = .ok s' → NewTracked base s') ∧
      (∀ msg sE, copyFiles cursor d now s L = .error (msg, sE) → NewTracked base sE) := by
  intro L
  induction L with
  | nil =>
    intro s hs
    constructor
    · intro s' hok
      cases hok
      exact hs
    · intro msg sE h
      exact absurd h (by simp [copyFiles])
  | cons rc rest ih =>
    intro s hs
    constructor
    · intro s' hok
      rw [copyFiles] at hok
      cases hco : copyOne cursor d now s rc with
      | error e =>
        rw [hco] at hok
        exact absurd hok (by simp)
      | ok s1 =>
        rw [hco] at hok
        exact (ih s1 (newTracked_copyOne cursor d now base s s1 rc hs hco)).1 s' hok
    · intro msg sE h
      rw [copyFiles] at h
      cases hco : copyOne cursor d now s rc with
      | error e =>
        rw [hco] at h
        injection h with h
        rcases copyOne_cases cursor d now s rc with ⟨dp, heq⟩ | ⟨msg', heq, _⟩
        · rw [heq] at hco; exact absurd hco (by simp)
        · rw [heq] at hco
          injection hco with hco
          have h2 : (msg', s) = (msg, sE) := hco.trans h
          injection h2 with h2a h2b
          rw [← h2b]
          exact hs
      | ok s1 =>
        rw [hco] at h
        exact (ih s1 (newTracked_copyOne cursor d now base s s1 rc hs hco)).2 msg sE h

theorem newTracked_countPreserved (cursor : List String) (d : String)
    (base : FS) (s : LoopState) (hs : NewTracked base s) :
    NewTracked base (countPreserved cursor d s) := by
  intro p hpb hps
  have hf := preservedFold_fields d (s.fs.mdFilesUnder (cursor ++ [d])) s
  unfold countPreserved at hps ⊢
  rw [hf.1] at hps
  rw [hf.2.2]
  exact hs p hpb hps

theorem newTracked_processDir (cursor : List String) (sub : List (String × List Entry))
    (now : String) (base : FS) (s : LoopState) (d : String)
    (hs : NewTracked base s) :
    (∀ s', processDir cursor sub now s d = .ok s' → NewTracked base s') ∧
    (∀ msg sE, processDir cursor sub now s d = .error (msg, sE) → NewTracked base sE) := by
  unfold processDir
  cases hl : lookupSub sub d with
  | none =>
    constructor
    · intro s' hok
      cases hok
      exact hs
    · intro msg sE h
      exact absurd h (by simp)
  | some es =>
    have hs0 : NewTracked base { s with fs := s.fs.mkdirp (cursor ++ [d]) } := by
      intro p hpb hps
      simp only [FS.read_mkdirp] at hps
      exact hs p hpb hps
    have hcf := newTracked_copyFiles cursor d now base (getMdFilesEntries es)
      { s with fs := s.fs.mkdirp (cursor ++ [d]) } hs0
    constructor
    · intro s' hok
      simp only [] at hok
      cases hcc : copyFiles cursor d now { s with fs := s.fs.mkdirp (cursor ++ [d]) }
        (getMdFilesEntries es) with
      | error e =>
        rw [hcc] at hok
        exact absurd hok (by simp)
      | ok s1 =>
        rw [hcc] at hok
        injection hok with hok
        rw [← hok]
        exact newTracked_countPreserved cursor d base s1 (hcf.1 s1 hcc)
    · intro msg sE h
      simp only [] at h
      cases hcc : copyFiles cursor d now { s with fs := s.fs.mkdirp (cursor ++ [d]) }
        (getMdFilesEntries es) with
      | error e =>
        rw [hcc] at h
        injection h with h
        have := hcf.2 e.1 e.2 (by rw [hcc])
        rw [h] at this
        exact this
      | ok s1 =>
        rw [hcc] at h
        exact absurd h (by simp)

theorem newTracked_processDirs (cursor : List String) (sub : List (String × List Entry))
    (now : String) (base : FS) :
    ∀ (ds : List String) (s : LoopState),
      NewTracked base s →
      (∀ s', processDirs cursor sub now s ds = .ok s' → NewTracked base s') ∧
      (∀ msg sE, processDirs cursor sub now s ds = .error (msg, sE) → NewTracked base sE) := by
  intro ds
  induction ds with
  | nil =>
    intro s hs
    constructor
    · intro s' hok
      cases hok
      exact hs
    · intro msg sE h
      exact absurd h (by simp [processDirs])
  | cons d rest ih =>
    intro s hs
    have hpd := newTracked_processDir cursor sub now base s d hs
    constructor
    · intro s' hok
      rw [processDirs] at hok
      cases hc : processDir cursor sub now s d with
      | error e =>
        rw [hc] at hok
        exact absurd hok (by simp)
      | ok s1 =>
        rw [hc] at hok
        exact (ih s1 (hpd.1 s1 hc)).1 s' hok
    · intro msg sE h
      rw [processDirs] at h
      cases hc : processDir cursor sub now s d with
      | error e =>
        rw [hc] at h
        injection h with h
        have := hpd.2 e.1 e.2 (by rw [hc])
        rw [h] at this
        exact this
      | ok s1 =>
        rw [hc] at h
        exact (ih s1 (hpd.1 s1 hc)).2 msg sE h

/-- `rollbackFiles` never creates a file. -/
theorem rollbackFiles_read_none (p : List String) :
    ∀ (inst : List (List String × Bool)) (fs : FS),
      fs.read p = none → (rollbackFiles fs inst).read p = none := by
  intro inst
  induction inst with
  | nil => intro fs h; exact h
  | cons pi rest ih =>
    intro fs h
    unfold rollbackFiles
    rw [List.foldl_cons]
    show (rollbackFiles _ rest).read p = none
    refine ih _ ?_
    split
    · by_cases hpq : p = pi.1
      · rw [hpq]; exact FS.read_erase _ _
      · rw [FS.read_erase_ne _ _ _ hpq]; exact h
    · exact h

/-- A path recorded as newly created is absent after `rollbackFiles`. -/
theorem rollbackFiles_removes (p : List String) :
    ∀ (inst : List (List String × Bool)) (fs : FS),
      (p, true) ∈ inst → (rollbackFiles fs inst).read p = none := by
  intro inst
  induction inst with
  | nil =>
    intro fs h
    simp at h
  | cons pi rest ih =>
    intro fs h
    rcases List.mem_cons.mp h with h | h
    · unfold rollbackFiles
      rw [List.foldl_cons]
      show (rollbackFiles _ rest).read p = none
      refine rollbackFiles_read_none p rest _ ?_
      rw [← h]
      simp only []
      split
      · exact FS.read_erase _ _
      · rename_i hcond
        simp only [Bool.and_eq_true] at hcond
        cases hv : (fs.read p).isSome
        · cases hr : fs.read p
          · rfl
          · rw [hr] at hv; simp at hv
        · exact absurd ⟨trivial, hv⟩ hcond
    · unfold rollbackFiles
      rw [List.foldl_cons]
      exact ih _ h

/-! ## Directory-level lemmas -/

/-- The enumeration of one managed directory (empty when the source directory
is missing). -/
def enumOf (sub : List (String × List Entry)) (d : String) :
    List (List String × String) :=
  match lookupSub sub d with
  | some es => getMdFilesEntries es
  | none => []

/-- The manifest content a run is expected to build over a list of managed
directories. -/
def expectedMf (sub : List (String × List Entry)) (now : String) :
    List String → List (String × ManifestEntry)
  | [] => []
  | d :: rest => mfEntries d now (enumOf sub d) ++ expectedMf sub now rest

/-- All file paths of a filesystem are clean (true of any real destination
tree reached through a real `readdir`/`mkdir` interface). -/
def cleanFS (fs : FS) : Prop := ∀ e ∈ fs.files, cleanSegs e.1 = true

theorem cleanSegs_drop {p : List String} (h : cleanSegs p = true) (n : Nat) :
    cleanSegs (p.drop n) = true := by
  simp only [cleanSegs, List.all_eq_true] at h ⊢
  exact fun s hs => h s (List.mem_of_mem_drop hs)

theorem read_isSome_clean {fs : FS} (hfs : cleanFS fs) {p : List String}
    (h : (fs.read p).isSome = true) : cleanSegs p = true := by
  unfold FS.read at h
  cases hfind : fs.files.find? (fun e => e.1 = p) with
  | none => rw [hfind] at h; simp at h
  | some e =>
    have hmem := List.mem_of_find?_eq_some hfind
    have hpe := List.find?_some hfind
    simp only [decide_eq_true_eq] at hpe
    exact hpe ▸ hfs e hmem

theorem cleanFS_write {fs : FS} (hfs : cleanFS fs) {p : List String}
    (hp : cleanSegs p = true) (c : String) : cleanFS (fs.write p c) := by
  intro e he
  simp only [FS.write, List.mem_cons, List.mem_filter] at he
  rcases he with he | he
  · rw [he]; exact hp
  · exact hfs e he.1

theorem cleanFS_erase {fs : FS} (hfs : cleanFS fs) (p : List String) :
    cleanFS (fs.erase p) := by
  intro e he
  simp only [FS.erase, List.mem_filter] at he
  exact hfs e he.1

theorem cleanFS_mkdirp {fs : FS} (hfs : cleanFS fs) (p : List String) :
    cleanFS (fs.mkdirp p) := hfs

theorem cleanFS_copyFiles (cursor : List String) (d : String) (now : String)
    (hcur : cleanSegs cursor = true) (hd : cleanSeg d = true) :
    ∀ (L : List (List String × String)) (s s' : LoopState),
      (∀ rc ∈ L, cleanSegs rc.1 = true) →
      copyFiles cursor d now s L = .ok s' →
      cleanFS s.fs → cleanFS s'.fs := by
  intro L
  induction L with
  | nil =>
    intro s s' _ hok hc
    cases hok
    exact hc
  | cons rc rest ih =>
    intro s s' hcl hok hc
    rw [copyFiles_cons_clean cursor d now s rc rest hcur hd (hcl rc (by simp))] at hok
    refine ih (copyStepState cursor d now s rc) s'
      (fun rc' h => hcl rc' (List.mem_cons_of_mem rc h)) hok ?_
    show cleanFS ((s.fs.mkdirp _).write _ _)
    refine cleanFS_write (cleanFS_mkdirp hc _) ?_ _
    rw [cleanSegs_append, hcur]
    simp only [Bool.true_and]
    show cleanSegs (d :: rc.1) = true
    simp only [cleanSegs, List.all_cons, hd, Bool.true_and]
    exact hcl rc (by simp)

theorem read_isSome_of_mem {fs : FS} {p : List String} {c : String}
    (h : (p, c) ∈ fs.files) : (fs.read p).isSome = true := by
  unfold FS.read
  rw [Option.isSome_map']
  rw [List.find?_isSome]
  exact ⟨(p, c), h, by simp⟩

theorem read_isSome_mem {fs : FS} {p : List String}
    (h : (fs.read p).isSome = true) : ∃ c, (p, c) ∈ fs.files := by
  unfold FS.read at h
  cases hfind : fs.files.find? (fun e => e.1 = p) with
  | none => rw [hfind] at h; simp at h
  | some e =>
    have hmem := List.mem_of_find?_eq_some hfind
    have hpe := List.find?_some hfind
    simp only [decide_eq_true_eq] at hpe
    exact ⟨e.2, by rw [← hpe]; exact hmem⟩

theorem enumOf_props (sub : List (String × List Entry)) (d : String)
    (hwf : ∀ es, lookupSub sub d = some es → WFEntries es = true) :
    (∀ rc ∈ enumOf sub d,
      cleanSegs rc.1 = true ∧ rc.1 ≠ [] ∧ isMdName (rc.1.getLastD "") = true) ∧
    ((enumOf sub d).map (·.1)).Nodup := by
  unfold enumOf
  cases hl : lookupSub sub d with
  | none => simp
  | some es =>
    exact ⟨fun rc h => mdClean2_all es (hwf es hl) rc h, mdNodup2_all es (hwf es hl)⟩

theorem preservedFold_ops_mono (d : String) :
    ∀ (l : List (List String × String)) (s : LoopState) (op : Op),
      op ∈ s.ops → op ∈ (l.foldl (preservedStep d) s).ops := by
  intro l
  induction l with
  | nil => intro s op h; exact h
  | cons rc rest ih =>
    intro s op h
    rw [List.foldl_cons]
    refine ih _ op ?_
    unfold preservedStep
    split
    · exact h
    · simp [h]

theorem processDir_ok_struct (cursor : List String) (sub : List (String × List Entry))
    (now : String) (s : LoopState) (d : String) (s' : LoopState)
    (hok : processDir cursor sub now s d = .ok s') :
    (lookupSub sub d = none ∧ s' = s) ∨
    (∃ es s1, lookupSub sub d = some es ∧
      copyFiles cursor d now { s with fs := s.fs.mkdirp (cursor ++ [d]) }
        (getMdFilesEntries es) = .ok s1 ∧
      s' = countPreserved cursor d s1) := by
  unfold processDir at hok
  cases hl : lookupSub sub d with
  | none =>
    rw [hl] at hok
    cases hok
    exact Or.inl ⟨rfl, rfl⟩
  | some es =>
    rw [hl] at hok
    simp only [] at hok
    cases hcf : copyFiles cursor d now { s with fs := s.fs.mkdirp (cursor ++ [d]) }
      (getMdFilesEntries es) with
    | error e =>
      rw [hcf] at hok
      exact absurd hok (by simp)
    | ok s1 =>
      rw [hcf] at hok
      injection hok with hok
      exact Or.inr ⟨es, s1, rfl, hcf, hok.symm⟩

theorem processDir_ok (cursor : List String) (sub : List (String × List Entry))
    (now : String) (s : LoopState) (d : String)
    (hcur : cleanSegs cursor = true) (hd : cleanSeg d = true)
    (hwf : ∀ es, lookupSub sub d = some es → WFEntries es = true) :
    ∃ s', processDir cursor sub now s d = .ok s' := by
  unfold processDir
  cases hl : lookupSub sub d with
  | none => exact ⟨s, rfl⟩
  | some es =>
    obtain ⟨s1, hs1⟩ := copyFiles_ok cursor d now hcur hd (getMdFilesEntries es)
      { s with fs := s.fs.mkdirp (cursor ++ [d]) }
      (fun rc h => (mdClean2_all es (hwf es hl) rc h).1)
    exact ⟨countPreserved cursor d s1, by simp only []; rw [hs1]⟩

theorem processDir_read_ne (cursor : List String) (sub : List (String × List Entry))
    (now : String) (s : LoopState) (d : String) (s' : LoopState)
    (hcur : cleanSegs cursor = true) (hd : cleanSeg d = true)
    (hwf : ∀ es, lookupSub sub d = some es → WFEntries es = true)
    (hok : processDir cursor sub now s d = .ok s')
    (p : List String) (hp : ∀ rc ∈ enumOf sub d, p ≠ cursor ++ d :: rc.1) :
    s'.fs.read p = s.fs.read p := by
  rcases processDir_ok_struct cursor sub now s d s' hok with ⟨hl, hs⟩ | ⟨es, s1, hl, hcf, hs⟩
  · rw [hs]
  · rw [hs]
    have hfields := preservedFold_fields d (s1.fs.mdFilesUnder (cursor ++ [d])) s1
    unfold countPreserved
    rw [hfields.1]
    have := copyFiles_read_ne cursor d now hcur hd (getMdFilesEntries es)
      { s with fs := s.fs.mkdirp (cursor ++ [d]) } s1
      (fun rc h => (mdClean2_all es (hwf es hl) rc h).1) hcf p
      (fun rc h => hp rc (by rw [enumOf, hl]; exact h))
    rw [this, FS.read_mkdirp]

theorem processDir_read_mem (cursor : List String) (sub : List (String × List Entry))
    (now : String) (s : LoopState) (d : String) (s' : LoopState)
    (hcur : cleanSegs cursor = true) (hd : cleanSeg d = true)
    (hwf : ∀ es, lookupSub sub d = some es → WFEntries es = true)
    (hok : processDir cursor sub now s d = .ok s')
    (rc : List String × String) (hmem : rc ∈ enumOf sub d) :
    s'.fs.read (cursor ++ d :: rc.1) = some rc.2 := by
  rcases processDir_ok_struct cursor sub now s d s' hok with ⟨hl, _⟩ | ⟨es, s1, hl, hcf, hs⟩
  · rw [enumOf, hl] at hmem
    simp at hmem
  · rw [hs]
    have hfields := preservedFold_fields d (s1.fs.mdFilesUnder (cursor ++ [d])) s1
    unfold countPreserved
    rw [hfields.1]
    rw [enumOf, hl] at hmem
    exact copyFiles_read_mem cursor d now hcur hd (getMdFilesEntries es)
      { s with fs := s.fs.mkdirp (cursor ++ [d]) } s1
      (fun rc' h => (mdClean2_all es (hwf es hl) rc' h).1)
      (mdNodup2_all es (hwf es hl)) hcf rc hmem

theorem processDir_manifest (cursor : List String) (sub : List (String × List Entry))
    (now : String) (s : LoopState) (d : String) (s' : LoopState)
    (hcur : cleanSegs cursor = true) (hd : cleanSeg d = true)
    (hwf : ∀ es, lookupSub sub d = some es → WFEntries es = true)
    (hok : processDir cursor sub now s d = .ok s') :
    s'.manifestFiles = s.manifestFiles ++ mfEntries d now (enumOf sub d) := by
  rcases processDir_ok_struct cursor sub now s d s' hok with ⟨hl, hs⟩ | ⟨es, s1, hl, hcf, hs⟩
  · rw [hs, enumOf, hl]
    simp [mfEntries]
  · rw [hs]
    have hfields := preservedFold_fields d (s1.fs.mdFilesUnder (cursor ++ [d])) s1
    unfold countPreserved
    rw [hfields.2.1, enumOf, hl]
    exact copyFiles_manifest cursor d now hcur hd (getMdFilesEntries es)
      { s with fs := s.fs.mkdirp (cursor ++ [d]) } s1
      (fun rc' h => (mdClean2_all es (hwf es hl) rc' h).1) hcf

theorem processDir_cleanFS (cursor : List String) (sub : List (String × List Entry))
    (now : String) (s : LoopState) (d : String) (s' : LoopState)
    (hcur : cleanSegs cursor = true) (hd : cleanSeg d = true)
    (hwf : ∀ es, lookupSub sub d = some es → WFEntries es = true)
    (hok : processDir cursor sub now s d = .ok s')
    (hc : cleanFS s.fs) : cleanFS s'.fs := by
  rcases processDir_ok_struct cursor sub now s d s' hok with ⟨_, hs⟩ | ⟨es, s1, hl, hcf, hs⟩
  · rw [hs]; exact hc
  · rw [hs]
    have hfields := preservedFold_fields d (s1.fs.mdFilesUnder (cursor ++ [d])) s1
    unfold countPreserved
    rw [hfields.1]
    exact cleanFS_copyFiles cursor d now hcur hd (getMdFilesEntries es)
      { s with fs := s.fs.mkdirp (cursor ++ [d]) } s1
      (fun rc' h => (mdClean2_all es (hwf es hl) rc' h).1) hcf hc

theorem processDir_ops_mono (cursor : List String) (sub : List (String × List Entry))
    (now : String) (s : LoopState) (d : String) (s' : LoopState)
    (hcur : cleanSegs cursor = true) (hd : cleanSeg d = true)
    (hwf : ∀ es, lookupSub sub d = some es → WFEntries es = true)
    (hok : processDir cursor sub now s d = .ok s')
    (op : Op) (h : op ∈ s.ops) : op ∈ s'.ops := by
  rcases processDir_ok_struct cursor sub now s d s' hok with ⟨_, hs⟩ | ⟨es, s1, hl, hcf, hs⟩
  · rw [hs]; exact h
  · rw [hs]
    unfold countPreserved
    refine preservedFold_ops_mono d _ s1 op ?_
    rw [copyFiles_ops cursor d now hcur hd (getMdFilesEntries es)
      { s with fs := s.fs.mkdirp (cursor ++ [d]) } s1
      (fun rc' hh => (mdClean2_all es (hwf es hl) rc' hh).1)
      (mdNodup2_all es (hwf es hl)) hcf]
    exact List.mem_append_left _ h

theorem processDir_copied_mem (cursor : List String) (sub : List (String × List Entry))
    (now : String) (s : LoopState) (d : String) (s' : LoopState)
    (hcur : cleanSegs cursor = true) (hd : cleanSeg d = true)
    (hwf : ∀ es, lookupSub sub d = some es → WFEntries es = true)
    (hok : processDir cursor sub now s d = .ok s')
    (rc : List String × String) (hmem : rc ∈ enumOf sub d) :
    Op.copied (renderKey d rc.1) ((s.fs.read (cursor ++ d :: rc.1)).isSome) ∈ s'.ops := by
  rcases processDir_ok_struct cursor sub now s d s' hok with ⟨hl, _⟩ | ⟨es, s1, hl, hcf, hs⟩
  · rw [enumOf, hl] at hmem
    simp at hmem
  · rw [hs]
    unfold countPreserved
    refine preservedFold_ops_mono d _ s1 _ ?_
    rw [copyFiles_ops cursor d now hcur hd (getMdFilesEntries es)
      { s with fs := s.fs.mkdirp (cursor ++ [d]) } s1
      (fun rc' hh => (mdClean2_all es (hwf es hl) rc' hh).1)
      (mdNodup2_all es (hwf es hl)) hcf]
    refine List.mem_append_right _ ?_
    rw [enumOf, hl] at hmem
    have : ({ s with fs := s.fs.mkdirp (cursor ++ [d]) } : LoopState).fs.read
        (cursor ++ d :: rc.1) = s.fs.read (cursor ++ d :: rc.1) := FS.read_mkdirp _ _ _
    rw [← this]
    exact List.mem_map_of_mem _ hmem

theorem cleanSegs_of_append_right {a b : List String}
    (h : cleanSegs (a ++ b) = true) : cleanSegs b = true := by
  rw [cleanSegs_append, Bool.and_eq_true] at h
  exact h.2

theorem cleanSegs_of_cons {a : String} {b : List String}
    (h : cleanSegs (a :: b) = true) : cleanSegs b = true := by
  simp only [cleanSegs, List.all_cons, Bool.and_eq_true] at h
  simpa [cleanSegs] using h.2

theorem preservedUser_not_mem_copiedMap (k : String) (d : String)
    (f : List String × String → Bool) (L : List (List String × String)) :
    Op.preservedUser k ∉ L.map (fun rc => Op.copied (renderKey d rc.1) (f rc)) := by
  intro h
  simp only [List.mem_map] at h
  obtain ⟨rc, _, hrc⟩ := h
  exact absurd hrc (by simp)

theorem getLastD_append_cons (pre q : List String) (hq : q ≠ []) :
    (pre ++ q).getLastD "" = q.getLastD "" := by
  rw [List.getLastD_eq_getLast?, List.getLastD_eq_getLast?,
    List.getLast?_append_of_ne_nil _ hq]

theorem processDir_preserved_char (cursor : List String)
    (sub : List (String × List Entry)) (now : String) (s : LoopState) (d : String)
    (s' : LoopState)
    (hcur : cleanSegs cursor = true) (hd : cleanSeg d = true)
    (hwf : ∀ es, lookupSub sub d = some es → WFEntries es = true)
    (hok : processDir cursor sub now s d = .ok s')
    (hcfs : cleanFS s.fs) (k : String) :
    (Op.preservedUser k ∈ s'.ops ↔
      Op.preservedUser k ∈ s.ops ∨
      ((lookupSub sub d).isSome = true ∧ ∃ q, k = renderKey d q ∧ q ≠ [] ∧
        isMdName (q.getLastD "") = true ∧
        (s.fs.read (cursor ++ d :: q)).isSome = true ∧
        q ∉ (enumOf sub d).map (·.1) ∧
        (s.manifestFiles.find? (fun e => e.1 = k)).isSome = false)) := by
  rcases processDir_ok_struct cursor sub now s d s' hok with ⟨hl, hs⟩ | ⟨es, s1, hl, hcf, hs⟩
  · rw [hs, hl]
    simp
  · have hcleanL : ∀ rc ∈ getMdFilesEntries es, cleanSegs rc.1 = true :=
      fun rc h => (mdClean2_all es (hwf es hl) rc h).1
    have hmani := copyFiles_manifest cursor d now hcur hd (getMdFilesEntries es)
      { s with fs := s.fs.mkdirp (cursor ++ [d]) } s1 hcleanL hcf
    have hops := copyFiles_ops cursor d now hcur hd (getMdFilesEntries es)
      { s with fs := s.fs.mkdirp (cursor ++ [d]) } s1 hcleanL
      (mdNodup2_all es (hwf es hl)) hcf
    have hclean1 : cleanFS s1.fs :=
      cleanFS_copyFiles cursor d now hcur hd (getMdFilesEntries es)
        { s with fs := s.fs.mkdirp (cursor ++ [d]) } s1 hcleanL hcf hcfs
    have hreadne : ∀ p, (∀ rc ∈ getMdFilesEntries es, p ≠ cursor ++ d :: rc.1) →
        s1.fs.read p = s.fs.read p := by
      intro p hp
      have := copyFiles_read_ne cursor d now hcur hd (getMdFilesEntries es)
        { s with fs := s.fs.mkdirp (cursor ++ [d]) } s1 hcleanL hcf p hp
      rw [this, FS.read_mkdirp]
    have henum : enumOf sub d = getMdFilesEntries es := by rw [enumOf, hl]
    rw [hs]
    unfold countPreserved
    rw [preservedFold_ops_char d k (s1.fs.mdFilesUnder (cursor ++ [d])) s1]
    have hmem_s1ops : (Op.preservedUser k ∈ s1.ops ↔ Op.preservedUser k ∈ s.ops) := by
      rw [hops]
      simp only [List.mem_append]
      constructor
      · rintro (h | h)
        · exact h
        · exact absurd h (preservedUser_not_mem_copiedMap k d _ _)
      · exact fun h => Or.inl h
    rw [hmem_s1ops]
    refine or_congr Iff.rfl ?_
    constructor
    · rintro ⟨qc, hqcmem, hk, hnfind⟩
      have hqc2 : ∃ c, (qc.1, c) ∈ s1.fs.mdFilesUnder (cursor ++ [d]) :=
        ⟨qc.2, by simpa using hqcmem⟩
      rw [mem_mdFilesUnder] at hqc2
      obtain ⟨p, c, hpc, hpre, hlen, hmd, hq⟩ := hqc2
      rw [List.isPrefixOf_iff_prefix] at hpre
      obtain ⟨t, ht⟩ := hpre
      have hqt : qc.1 = t := by
        rw [hq, ← ht, List.drop_left]
      have hp : p = cursor ++ d :: qc.1 := by
        rw [← ht, hqt]
        simp
      have htne : qc.1 ≠ [] := by
        intro hnil
        rw [hqt] at hnil
        rw [← ht, hnil] at hlen
        simp at hlen
      rw [← hk] at hnfind
      have hnf12 : (s.manifestFiles.find? (fun e => e.1 = k)).isSome = false ∧
          ((mfEntries d now (getMdFilesEntries es)).find? (fun e => e.1 = k)).isSome = false := by
        rw [hmani] at hnfind
        simp only [] at hnfind
        rw [List.find?_append, Option.isSome_or] at hnfind
        constructor
        · cases hv : (List.find? (fun e => e.1 = k) s.manifestFiles).isSome
          · rfl
          · exact absurd (by rw [hv]; simp) hnfind
        · cases hv : (List.find? (fun e => e.1 = k)
              (mfEntries d now (getMdFilesEntries es))).isSome
          · rfl
          · exact absurd (by rw [hv]; simp) hnfind
      have hqnotin : qc.1 ∉ (enumOf sub d).map (·.1) := by
        intro hin
        rw [henum] at hin
        simp only [List.mem_map] at hin
        obtain ⟨rc, hrcmem, hrc⟩ := hin
        have : ((mfEntries d now (getMdFilesEntries es)).find? (fun e => e.1 = k)).isSome = true := by
          rw [List.find?_isSome]
          refine ⟨(renderKey d rc.1,
            { source := joinSegs ("everything-claude-code" :: d :: rc.1)
              installedAt := now
              checksum := calculateChecksum rc.2 }), ?_, ?_⟩
          · unfold mfEntries
            exact List.mem_map_of_mem _ hrcmem
          · simp only [decide_eq_true_eq]
            rw [hk, hrc]
        rw [hnf12.2] at this
        exact absurd this (by simp)
      have hreads : (s.fs.read (cursor ++ d :: qc.1)).isSome = true := by
        have h1 : (s1.fs.read p).isSome = true := read_isSome_of_mem hpc
        rw [hp] at h1
        rw [← hreadne (cursor ++ d :: qc.1) ?_]
        · exact h1
        · intro rc hrcmem heq
          have : qc.1 = rc.1 := pathOf_inj cursor d heq
          exact hqnotin (by rw [henum]; exact this ▸ List.mem_map_of_mem _ hrcmem)
      refine ⟨by rw [hl]; rfl, qc.1, hk, htne, ?_, hreads, hqnotin, hnf12.1⟩
      rw [hp] at hmd
      have : cursor ++ d :: qc.1 = (cursor ++ [d]) ++ qc.1 := by simp
      rw [this] at hmd
      rw [getLastD_append_cons _ _ htne] at hmd
      exact hmd
    · rintro ⟨_, q, hk, hqne, hqmd, hread, hqnotin, hnfs⟩
      have hreads1 : (s1.fs.read (cursor ++ d :: q)).isSome = true := by
        rw [hreadne (cursor ++ d :: q) ?_]
        · exact hread
        · intro rc hrcmem heq
          have : q = rc.1 := pathOf_inj cursor d heq
          exact hqnotin (by rw [henum]; exact this ▸ List.mem_map_of_mem _ hrcmem)
      obtain ⟨c, hcmem⟩ := read_isSome_mem hreads1
      have hqclean : cleanSegs q = true := by
        have := read_isSome_clean hcfs hread
        exact cleanSegs_of_cons (cleanSegs_of_append_right this)
      have hmdu : ∃ c', (q, c') ∈ s1.fs.mdFilesUnder (cursor ++ [d]) := by
        rw [mem_mdFilesUnder]
        refine ⟨cursor ++ d :: q, c, hcmem, ?_, ?_, ?_, ?_⟩
        · rw [List.isPrefixOf_iff_prefix]
          refine ⟨q, by simp⟩
        · simp [hqne]
          have : q.length ≠ 0 := fun h => hqne (List.length_eq_zero.mp h)
          omega
        · have heq : cursor ++ d :: q = (cursor ++ [d]) ++ q := by simp
          rw [heq, getLastD_append_cons _ _ hqne]
          exact hqmd
        · have heq : cursor ++ d :: q = (cursor ++ [d]) ++ q := by simp
          rw [heq, List.drop_left]
      obtain ⟨c', hmdu⟩ := hmdu
      refine ⟨(q, c'), hmdu, hk, ?_⟩
      simp only []
      rw [← hk, hmani]
      simp only []
      rw [List.find?_append, Option.isSome_or]
      have h2 : ((mfEntries d now (getMdFilesEntries es)).find? (fun e => e.1 = k)) = none := by
        rw [List.find?_eq_none]
        intro e he
        simp only [decide_eq_true_eq]
        intro heq
        unfold mfEntries at he
        simp only [List.mem_map] at he
        obtain ⟨rc, hrcmem, hrc⟩ := he
        have hrck : renderKey d rc.1 = k := by rw [← heq, ← hrc]
        rw [hk] at hrck
        have hrcclean : cleanSegs rc.1 = true :=
          (mdClean2_all es (hwf es hl) rc hrcmem).1
        have := renderKey_inj hd hrcclean hd hqclean hrck
        exact hqnotin (by rw [henum]; exact this.2 ▸ List.mem_map_of_mem _ hrcmem)
      intro hor
      rw [Bool.or_eq_true] at hor
      rcases hor with h | h
      · rw [hnfs] at h; exact absurd h (by simp)
      · rw [h2] at h; exact absurd h (by simp)

/-! ## Loop-level lemmas over the managed directory list -/

theorem head_ne_path {cursor : List String} {d d0 : String} {q rel : List String}
    (hne : d ≠ d0) : cursor ++ d :: q ≠ cursor ++ d0 :: rel := by
  intro heq
  have := List.append_cancel_left heq
  injection this with h1 _
  exact hne h1

theorem processDirs_ok (cursor : List String) (sub : List (String × List Entry))
    (now : String)
    (hcur : cleanSegs cursor = true) :
    ∀ (ds : List String),
      (∀ d ∈ ds, ∀ es, lookupSub sub d = some es → WFEntries es = true) →
      ∀ (s : LoopState),
      (∀ d ∈ ds, cleanSeg d = true) →
      ∃ s', processDirs cursor sub now s ds = .ok s' := by
  intro ds
  induction ds with
  | nil => intro _ s _; exact ⟨s, rfl⟩
  | cons d0 rest ih =>
    intro hwf s hcl
    obtain ⟨s2, hs2⟩ := processDir_ok cursor sub now s d0 hcur (hcl d0 (by simp))
      (fun es h => hwf d0 (List.mem_cons_self d0 rest) es h)
    obtain ⟨s', hs'⟩ := ih (fun d hd => hwf d (List.mem_cons_of_mem d0 hd)) s2
      (fun d h => hcl d (List.mem_cons_of_mem d0 h))
    exact ⟨s', by rw [processDirs, hs2]; exact hs'⟩

theorem processDirs_read_ne (cursor : List String) (sub : List (String × List Entry))
    (now : String)
    (hcur : cleanSegs cursor = true) :
    ∀ (ds : List String),
      (∀ d ∈ ds, ∀ es, lookupSub sub d = some es → WFEntries es = true) →
      ∀ (s s' : LoopState),
      (∀ d ∈ ds, cleanSeg d = true) →
      processDirs cursor sub now s ds = .ok s' →
      ∀ p, (∀ d ∈ ds, ∀ rc ∈ enumOf sub d, p ≠ cursor ++ d :: rc.1) →
      s'.fs.read p = s.fs.read p := by
  intro ds
  induction ds with
  | nil =>
    intro _ s s' _ hok p _
    cases hok
    rfl
  | cons d0 rest ih =>
    intro hwf s s' hcl hok p hp
    rw [processDirs] at hok
    cases hc : processDir cursor sub now s d0 with
    | error e => rw [hc] at hok; exact absurd hok (by simp)
    | ok s2 =>
      rw [hc] at hok
      rw [ih (fun d hd => hwf d (List.mem_cons_of_mem d0 hd)) s2 s'
        (fun d h => hcl d (List.mem_cons_of_mem d0 h)) hok p
        (fun d h rc hrc => hp d (List.mem_cons_of_mem d0 h) rc hrc)]
      exact processDir_read_ne cursor sub now s d0 s2 hcur (hcl d0 (by simp))
        (fun es h => hwf d0 (List.mem_cons_self d0 rest) es h) hc p
        (fun rc hrc => hp d0 (by simp) rc hrc)

theorem processDirs_read_mem (cursor : List String) (sub : List (String × List Entry))
    (now : String)
    (hcur : cleanSegs cursor = true) :
    ∀ (ds : List String),
      (∀ d ∈ ds, ∀ es, lookupSub sub d = some es → WFEntries es = true) →
      ∀ (s s' : LoopState),
      (∀ d ∈ ds, cleanSeg d = true) → ds.Nodup →
      processDirs cursor sub now s ds = .ok s' →
      ∀ d ∈ ds, ∀ rc ∈ enumOf sub d,
        s'.fs.read (cursor ++ d :: rc.1) = some rc.2 := by
  intro ds
  induction ds with
  | nil =>
    intro _ s s' _ _ _ d h
    simp at h
  | cons d0 rest ih =>
    intro hwf s s' hcl hnd hok d hd rc hrc
    rw [processDirs] at hok
    cases hc : processDir cursor sub now s d0 with
    | error e => rw [hc] at hok; exact absurd hok (by simp)
    | ok s2 =>
      rw [hc] at hok
      rw [List.nodup_cons] at hnd
      rcases List.mem_cons.mp hd with h | h
      · subst h
        rw [processDirs_read_ne cursor sub now hcur rest
          (fun d' hd' => hwf d' (List.mem_cons_of_mem d hd')) s2 s'
          (fun d' hh => hcl d' (List.mem_cons_of_mem d hh)) hok
          (cursor ++ d :: rc.1)
          (fun d' hd' rc' _ => head_ne_path (fun hdd => hnd.1 (hdd ▸ hd')))]
        exact processDir_read_mem cursor sub now s d s2 hcur (hcl d (by simp))
          (fun es hh => hwf d (List.mem_cons_self d rest) es hh) hc rc hrc
      · exact ih (fun d' hd' => hwf d' (List.mem_cons_of_mem d0 hd')) s2 s'
          (fun d' hh => hcl d' (List.mem_cons_of_mem d0 hh)) hnd.2 hok d h rc hrc

theorem processDirs_manifest (cursor : List String) (sub : List (String × List Entry))
    (now : String)
    (hcur : cleanSegs cursor = true) :
    ∀ (ds : List String),
      (∀ d ∈ ds, ∀ es, lookupSub sub d = some es → WFEntries es = true) →
      ∀ (s s' : LoopState),
      (∀ d ∈ ds, cleanSeg d = true) →
      processDirs cursor sub now s ds = .ok s' →
      s'.manifestFiles = s.manifestFiles ++ expectedMf sub now ds := by
  intro ds
  induction ds with
  | nil =>
    intro _ s s' _ hok
    cases hok
    simp [expectedMf]
  | cons d0 rest ih =>
    intro hwf s s' hcl hok
    rw [processDirs] at hok
    cases hc : processDir cursor sub now s d0 with
    | error e => rw [hc] at hok; exact absurd hok (by simp)
    | ok s2 =>
      rw [hc] at hok
      rw [ih (fun d hd => hwf d (List.mem_cons_of_mem d0 hd)) s2 s'
        (fun d h => hcl d (List.mem_cons_of_mem d0 h)) hok,
        processDir_manifest cursor sub now s d0 s2 hcur (hcl d0 (by simp))
          (fun es h => hwf d0 (List.mem_cons_self d0 rest) es h) hc, expectedMf]
      simp

theorem processDirs_cleanFS (cursor : List String) (sub : List (String × List Entry))
    (now : String)
    (hcur : cleanSegs cursor = true) :
    ∀ (ds : List String),
      (∀ d ∈ ds, ∀ es, lookupSub sub d = some es → WFEntries es = true) →
      ∀ (s s' : LoopState),
      (∀ d ∈ ds, cleanSeg d = true) →
      processDirs cursor sub now s ds = .ok s' →
      cleanFS s.fs → cleanFS s'.fs := by
  intro ds
  induction ds with
  | nil =>
    intro _ s s' _ hok hc
    cases hok
    exact hc
  | cons d0 rest ih =>
    intro hwf s s' hcl hok hc
    rw [processDirs] at hok
    cases hcp : processDir cursor sub now s d0 with
    | error e => rw [hcp] at hok; exact absurd hok (by simp)
    | ok s2 =>
      rw [hcp] at hok
      exact ih (fun d hd => hwf d (List.mem_cons_of_mem d0 hd)) s2 s'
        (fun d h => hcl d (List.mem_cons_of_mem d0 h)) hok
        (processDir_cleanFS cursor sub now s d0 s2 hcur (hcl d0 (by simp))
          (fun es h => hwf d0 (List.mem_cons_self d0 rest) es h) hcp hc)

theorem processDirs_ops_mono (cursor : List String) (sub : List (String × List Entry))
    (now : String)
    (hcur : cleanSegs cursor = true) :
    ∀ (ds : List String),
      (∀ d ∈ ds, ∀ es, lookupSub sub d = some es → WFEntries es = true) →
      ∀ (s s' : LoopState),
      (∀ d ∈ ds, cleanSeg d = true) →
      processDirs cursor sub now s ds = .ok s' →
      ∀ op ∈ s.ops, op ∈ s'.ops := by
  intro ds
  induction ds with
  | nil =>
    intro _ s s' _ hok op h
    cases hok
    exact h
  | cons d0 rest ih =>
    intro hwf s s' hcl hok op h
    rw [processDirs] at hok
    cases hcp : processDir cursor sub now s d0 with
    | error e => rw [hcp] at hok; exact absurd hok (by simp)
    | ok s2 =>
      rw [hcp] at hok
      exact ih (fun d hd => hwf d (List.mem_cons_of_mem d0 hd)) s2 s'
        (fun d hh => hcl d (List.mem_cons_of_mem d0 hh)) hok op
        (processDir_ops_mono cursor sub now s d0 s2 hcur (hcl d0 (by simp))
          (fun es hh => hwf d0 (List.mem_cons_self d0 rest) es hh) hcp op h)

theorem processDirs_copied_mem (cursor : List String) (sub : List (String × List Entry))
    (now : String)
    (hcur : cleanSegs cursor = true) :
    ∀ (ds : List String),
      (∀ d ∈ ds, ∀ es, lookupSub sub d = some es → WFEntries es = true) →
      ∀ (s s' : LoopState),
      (∀ d ∈ ds, cleanSeg d = true) → ds.Nodup →
      processDirs cursor sub now s ds = .ok s' →
      ∀ d ∈ ds, ∀ rc ∈ enumOf sub d,
        Op.copied (renderKey d rc.1) ((s.fs.read (cursor ++ d :: rc.1)).isSome) ∈ s'.ops := by
  intro ds
  induction ds with
  | nil =>
    intro _ s s' _ _ _ d h
    simp at h
  | cons d0 rest ih =>
    intro hwf s s' hcl hnd hok d hd rc hrc
    rw [processDirs] at hok
    cases hcp : processDir cursor sub now s d0 with
    | error e => rw [hcp] at hok; exact absurd hok (by simp)
    | ok s2 =>
      rw [hcp] at hok
      rw [List.nodup_cons] at hnd
      rcases List.mem_cons.mp hd with h | h
      · subst h
        refine processDirs_ops_mono cursor sub now hcur rest
          (fun d' hd' => hwf d' (List.mem_cons_of_mem d hd')) s2 s'
          (fun d' hh => hcl d' (List.mem_cons_of_mem d hh)) hok _ ?_
        exact processDir_copied_mem cursor sub now s d s2 hcur (hcl d (by simp))
          (fun es hh => hwf d (List.mem_cons_self d rest) es hh) hcp rc hrc
      · have hconv : s2.fs.read (cursor ++ d :: rc.1) = s.fs.read (cursor ++ d :: rc.1) :=
          processDir_read_ne cursor sub now s d0 s2 hcur (hcl d0 (by simp))
            (fun es hh => hwf d0 (List.mem_cons_self d0 rest) es hh) hcp (cursor ++ d :: rc.1)
            (fun rc' _ => head_ne_path (fun hdd => hnd.1 (hdd ▸ h)))
        have := ih (fun d' hd' => hwf d' (List.mem_cons_of_mem d0 hd')) s2 s'
          (fun d' hh => hcl d' (List.mem_cons_of_mem d0 hh)) hnd.2 hok d h rc hrc
        rw [hconv] at this
        exact this

/-- Per-directory preservation condition: what makes the run log
`(preserved - user file)` with key `renderKey d q`, phrased against the state
at the start of the run. -/
def PreservedCond (cursor : List String) (sub : List (String × List Entry))
    (fs : FS) (d : String) (k : String) : Prop :=
  (lookupSub sub d).isSome = true ∧ ∃ q, k = renderKey d q ∧ q ≠ [] ∧
    isMdName (q.getLastD "") = true ∧
    (fs.read (cursor ++ d :: q)).isSome = true ∧
    q ∉ (enumOf sub d).map (·.1)

theorem processDirs_preserved_char (cursor : List String)
    (sub : List (String × List Entry)) (now : String)
    (hcur : cleanSegs cursor = true) :
    ∀ (ds : List String),
      (∀ d ∈ ds, ∀ es, lookupSub sub d = some es → WFEntries es = true) →
      ∀ (s s' : LoopState),
      (∀ d ∈ ds, cleanSeg d = true) → ds.Nodup →
      cleanFS s.fs →
      (∀ d ∈ ds, ∀ q, cleanSegs q = true →
        (s.manifestFiles.find? (fun e => e.1 = renderKey d q)).isSome = false) →
      processDirs cursor sub now s ds = .ok s' →
      ∀ k, (Op.preservedUser k ∈ s'.ops ↔
        Op.preservedUser k ∈ s.ops ∨ ∃ d ∈ ds, PreservedCond cursor sub s.fs d k) := by
  intro ds
  induction ds with
  | nil =>
    intro _ s s' _ _ _ _ hok k
    cases hok
    simp
  | cons d0 rest ih =>
    intro hwf s s' hcl hnd hcfs hmf hok k
    rw [processDirs] at hok
    cases hcp : processDir cursor sub now s d0 with
    | error e => rw [hcp] at hok; exact absurd hok (by simp)
    | ok s2 =>
      rw [hcp] at hok
      rw [List.nodup_cons] at hnd
      have hd0 : cleanSeg d0 = true := hcl d0 (by simp)
      have hwf0 : ∀ es, lookupSub sub d0 = some es → WFEntries es = true :=
        fun es h => hwf d0 (List.mem_cons_self d0 rest) es h
      have hclean2 : cleanFS s2.fs :=
        processDir_cleanFS cursor sub now s d0 s2 hcur hd0 hwf0 hcp hcfs
      -- the manifest after the first directory still has no key of the
      -- remaining directories
      have hmani2 := processDir_manifest cursor sub now s d0 s2 hcur hd0 hwf0 hcp
      have hmf2 : ∀ d ∈ rest, ∀ q, cleanSegs q = true →
          (s2.manifestFiles.find? (fun e => e.1 = renderKey d q)).isSome = false := by
        intro d hd q hq
        rw [hmani2, List.find?_append, Option.isSome_or]
        rw [hmf d (List.mem_cons_of_mem d0 hd) q hq]
        simp only [Bool.false_or]
        cases hv : ((mfEntries d0 now (enumOf sub d0)).find?
            (fun e => e.1 = renderKey d q)).isSome
        · rfl
        · exfalso
          rw [List.find?_isSome] at hv
          obtain ⟨e, he, hpe⟩ := hv
          simp only [decide_eq_true_eq] at hpe
          unfold mfEntries at he
          simp only [List.mem_map] at he
          obtain ⟨rc, hrcmem, hrc⟩ := he
          have hkeys : renderKey d0 rc.1 = renderKey d q := by rw [← hpe, ← hrc]
          have hrcclean : cleanSegs rc.1 = true := by
            have hprops := enumOf_props sub d0 hwf0
            exact (hprops.1 rc hrcmem).1
          have := renderKey_inj hd0 hrcclean (hcl d (List.mem_cons_of_mem d0 hd)) hq hkeys
          exact hnd.1 (this.1 ▸ hd)
      have hIH := ih (fun d hd => hwf d (List.mem_cons_of_mem d0 hd)) s2 s'
        (fun d h => hcl d (List.mem_cons_of_mem d0 h)) hnd.2
        hclean2 hmf2 hok k
      have hchar := processDir_preserved_char cursor sub now s d0 s2 hcur hd0 hwf0
        hcp hcfs k
      -- convert the remaining-directory conditions from s2 back to s
      have hcondconv : ∀ d ∈ rest,
          (PreservedCond cursor sub s2.fs d k ↔ PreservedCond cursor sub s.fs d k) := by
        intro d hd
        have hdne : d ≠ d0 := fun h => hnd.1 (h ▸ hd)
        unfold PreservedCond
        refine and_congr Iff.rfl ?_
        refine exists_congr fun q => ?_
        have hrd : s2.fs.read (cursor ++ d :: q) = s.fs.read (cursor ++ d :: q) :=
          processDir_read_ne cursor sub now s d0 s2 hcur hd0 hwf0 hcp _
            (fun rc _ => head_ne_path hdne)
        rw [hrd]
      rw [hIH, hchar]
      constructor
      · rintro ((h | h) | h)
        · exact Or.inl h
        · refine Or.inr ⟨d0, by simp, ?_⟩
          unfold PreservedCond
          exact ⟨h.1, h.2.choose, h.2.choose_spec.1, h.2.choose_spec.2.1,
            h.2.choose_spec.2.2.1, h.2.choose_spec.2.2.2.1, h.2.choose_spec.2.2.2.2.1⟩
        · obtain ⟨d, hd, hcond⟩ := h
          exact Or.inr ⟨d, List.mem_cons_of_mem d0 hd, (hcondconv d hd).mp hcond⟩
      · rintro (h | ⟨d, hd, hcond⟩)
        · exact Or.inl (Or.inl h)
        · rcases List.mem_cons.mp hd with hdd | hdd
          · subst hdd
            refine Or.inl (Or.inr ?_)
            obtain ⟨hls, q, hk, hqne, hqmd, hread, hqnotin⟩ := hcond
            have hqclean : cleanSegs q = true :=
              cleanSegs_of_cons (cleanSegs_of_append_right (read_isSome_clean hcfs hread))
            refine ⟨hls, q, hk, hqne, hqmd, hread, hqnotin, ?_⟩
            rw [hk]
            exact hmf d (by simp) q hqclean
          · exact Or.inr ⟨d, hdd, (hcondconv d hdd).mpr hcond⟩

/-! ## Directory monotonicity and error propagation -/

theorem countPreserved_fs (cursor : List String) (d : String) (s : LoopState) :
    (countPreserved cursor d s).fs = s.fs :=
  (preservedFold_fields d (s.fs.mdFilesUnder (cursor ++ [d])) s).1

theorem processDir_dirs_mono (cursor : List String) (sub : List (String × List Entry))
    (now : String) (s : LoopState) (d : String) (s' : LoopState)
    (hcur : cleanSegs cursor = true) (hd : cleanSeg d = true)
    (hwf : ∀ es, lookupSub sub d = some es → WFEntries es = true)
    (hok : processDir cursor sub now s d = .ok s')
    (q : List String) (hq : q ∈ s.fs.dirs) : q ∈ s'.fs.dirs := by
  rcases processDir_ok_struct cursor sub now s d s' hok with ⟨_, hs⟩ | ⟨es, s1, hl, hcf, hs⟩
  · rw [hs]; exact hq
  · rw [hs, countPreserved_fs]
    refine copyFiles_dirs_mono cursor d now hcur hd (getMdFilesEntries es)
      { s with fs := s.fs.mkdirp (cursor ++ [d]) } s1
      (fun rc h => (mdClean2_all es (hwf es hl) rc h).1) hcf q ?_
    exact FS.mkdirp_dirs_mono _ _ hq

theorem processDirs_dirs_mono (cursor : List String) (sub : List (String × List Entry))
    (now : String)
    (hcur : cleanSegs cursor = true) :
    ∀ (ds : List String),
      (∀ d ∈ ds, ∀ es, lookupSub sub d = some es → WFEntries es = true) →
      ∀ (s s' : LoopState),
      (∀ d ∈ ds, cleanSeg d = true) →
      processDirs cursor sub now s ds = .ok s' →
      ∀ q ∈ s.fs.dirs, q ∈ s'.fs.dirs := by
  intro ds
  induction ds with
  | nil =>
    intro _ s s' _ hok q hq
    cases hok
    exact hq
  | cons d0 rest ih =>
    intro hwf s s' hcl hok q hq
    rw [processDirs] at hok
    cases hcp : processDir cursor sub now s d0 with
    | error e => rw [hcp] at hok; exact absurd hok (by simp)
    | ok s2 =>
      rw [hcp] at hok
      exact ih (fun d hd => hwf d (List.mem_cons_of_mem d0 hd)) s2 s'
        (fun d h => hcl d (List.mem_cons_of_mem d0 h)) hok q
        (processDir_dirs_mono cursor sub now s d0 s2 hcur (hcl d0 (by simp))
          (fun es h => hwf d0 (List.mem_cons_self d0 rest) es h) hcp q hq)

theorem copyFiles_err_of_mem (cursor : List String) (d : String) (now : String) :
    ∀ (L : List (List String × String)) (s : LoopState),
      (∃ rc ∈ L, ∃ e, validatePath (cursor ++ d :: rc.1) cursor = .error e) →
      ∃ msg sE, copyFiles cursor d now s L = .error (msg, sE) := by
  intro L
  induction L with
  | nil =>
    intro s h
    obtain ⟨rc, hrc, _⟩ := h
    simp at hrc
  | cons rc0 rest ih =>
    intro s h
    rw [copyFiles]
    cases hco : copyOne cursor d now s rc0 with
    | error e =>
      exact ⟨e.1, e.2, by simp⟩
    | ok s1 =>
      obtain ⟨rc, hrc, e, hv⟩ := h
      rcases List.mem_cons.mp hrc with hh | hh
      · exfalso
        unfold copyOne at hco
        rw [← hh] at hco
        rw [hv] at hco
        exact absurd hco (by simp)
      · exact ih s1 ⟨rc, hh, e, hv⟩

theorem copyFiles_error_form (cursor : List String) (d : String) (now : String) :
    ∀ (L : List (List String × String)) (s : LoopState) (msg : String) (sE : LoopState),
      copyFiles cursor d now s L = .error (msg, sE) →
      ∃ fp, msg = "Path traversal detected: " ++ fp := by
  intro L
  induction L with
  | nil =>
    intro s msg sE h
    exact absurd h (by simp [copyFiles])
  | cons rc rest ih =>
    intro s msg sE h
    rw [copyFiles] at h
    cases hco : copyOne cursor d now s rc with
    | error e =>
      rw [hco] at h
      injection h with h
      rcases copyOne_cases cursor d now s rc with ⟨dp, heq⟩ | ⟨msg', heq, fp, hfp⟩
      · rw [heq] at hco; exact absurd hco (by simp)
      · rw [heq] at hco
        injection hco with hco
        have h2 : (msg', s) = (msg, sE) := hco.trans h
        injection h2 with h2a _
        exact ⟨fp, h2a ▸ hfp⟩
    | ok s1 =>
      rw [hco] at h
      exact ih s1 msg sE h

theorem processDir_error_form (cursor : List String) (sub : List (String × List Entry))
    (now : String) (s : LoopState) (d : String) (msg : String) (sE : LoopState)
    (h : processDir cursor sub now s d = .error (msg, sE)) :
    ∃ fp, msg = "Path traversal detected: " ++ fp := by
  unfold processDir at h
  cases hl : lookupSub sub d with
  | none =>
    rw [hl] at h
    exact absurd h (by simp)
  | some es =>
    rw [hl] at h
    simp only [] at h
    cases hcf : copyFiles cursor d now { s with fs := s.fs.mkdirp (cursor ++ [d]) }
      (getMdFilesEntries es) with
    | error e =>
      rw [hcf] at h
      injection h with h
      obtain ⟨fp, hfp⟩ := copyFiles_error_form cursor d now (getMdFilesEntries es)
        { s with fs := s.fs.mkdirp (cursor ++ [d]) } e.1 e.2 (by rw [hcf])
      refine ⟨fp, ?_⟩
      have : e.1 = msg := by rw [h]
      rw [← this]
      exact hfp
    | ok s1 =>
      rw [hcf] at h
      exact absurd h (by simp)

theorem processDir_err_of_fail (cursor : List String) (sub : List (String × List Entry))
    (now : String) (s : LoopState) (d : String) (es : List Entry)
    (hl : lookupSub sub d = some es)
    (hfail : ∃ rc ∈ getMdFilesEntries es, ∃ e,
      validatePath (cursor ++ d :: rc.1) cursor = .error e) :
    ∃ msg sE, processDir cursor sub now s d = .error (msg, sE) := by
  unfold processDir
  rw [hl]
  simp only []
  obtain ⟨msg, sE, hcf⟩ := copyFiles_err_of_mem cursor d now (getMdFilesEntries es)
    { s with fs := s.fs.mkdirp (cursor ++ [d]) } hfail
  exact ⟨msg, sE, by rw [hcf]⟩

theorem processDirs_err_of_fail (cursor : List String) (sub : List (String × List Entry))
    (now : String) :
    ∀ (ds : List String) (s : LoopState),
      (∃ d ∈ ds, ∃ es, lookupSub sub d = some es ∧
        ∃ rc ∈ getMdFilesEntries es, ∃ e,
          validatePath (cursor ++ d :: rc.1) cursor = .error e) →
      ∃ msg sE, processDirs cursor sub now s ds = .error (msg, sE) := by
  intro ds
  induction ds with
  | nil =>
    intro s h
    obtain ⟨d, hd, _⟩ := h
    simp at hd
  | cons d0 rest ih =>
    intro s h
    rw [processDirs]
    cases hcp : processDir cursor sub now s d0 with
    | error e =>
      exact ⟨e.1, e.2, by simp⟩
    | ok s2 =>
      obtain ⟨d, hd, es, hl, hfail⟩ := h
      rcases List.mem_cons.mp hd with hh | hh
      · exfalso
        subst hh
        obtain ⟨msg, sE, herr⟩ := processDir_err_of_fail cursor sub now s d es hl hfail
        rw [herr] at hcp
        exact absurd hcp (by simp)
      · exact ih s2 ⟨d, hh, es, hl, hfail⟩

theorem processDirs_error_form (cursor : List String) (sub : List (String × List Entry))
    (now : String) :
    ∀ (ds : List String) (s : LoopState) (msg : String) (sE : LoopState),
      processDirs cursor sub now s ds = .error (msg, sE) →
      ∃ fp, msg = "Path traversal detected: " ++ fp := by
  intro ds
  induction ds with
  | nil =>
    intro s msg sE h
    exact absurd h (by simp [processDirs])
  | cons d0 rest ih =>
    intro s msg sE h
    rw [processDirs] at h
    cases hcp : processDir cursor sub now s d0 with
    | error e =>
      rw [hcp] at h
      injection h with h
      obtain ⟨fp, hfp⟩ := processDir_error_form cursor sub now s d0 e.1 e.2 (by rw [hcp])
      refine ⟨fp, ?_⟩
      have : e.1 = msg := by rw [h]
      rw [← this]
      exact hfp
    | ok s2 =>
      rw [hcp] at h
      exact ih s2 msg sE h

/-! ## Top-level structural lemmas -/

theorem splitSegsAux_ne_nil (cs cur : List Char) : splitSegsAux cur cs ≠ [] := by
  induction cs generalizing cur with
  | nil => simp [splitSegsAux]
  | cons c rest ih =>
    rw [splitSegsAux]
    split
    · simp
    · exact ih _

theorem joinSegs_splitSegsAux :
    ∀ (cs cur : List Char), joinSegs (splitSegsAux cur cs) = String.mk (cur.reverse ++ cs) := by
  intro cs
  induction cs with
  | nil =>
    intro cur
    simp [splitSegsAux, joinSegs]
  | cons c rest ih =>
    intro cur
    rw [splitSegsAux]
    by_cases hc : c = '/'
    · rw [if_pos hc]
      cases hne : splitSegsAux [] rest with
      | nil => exact absurd hne (splitSegsAux_ne_nil rest [])
      | cons a l =>
        show (⟨cur.reverse⟩ : String) ++ "/" ++ joinSegs (a :: l) = _
        rw [← hne, ih []]
        apply String.ext
        simp [String.data_append, hc]
    · rw [if_neg hc, ih (c :: cur)]
      apply String.ext
      simp

theorem joinSegs_splitPath (k : String) : joinSegs (splitPath k) = k := by
  rw [splitPath, joinSegs_splitSegsAux]
  apply String.ext
  simp

/-- A cleanup pass does not change a path that every previous-manifest key
either does not name, or names while still being a key of the new manifest. -/
theorem cleanupFold_read_keep (cursor : List String) :
    ∀ (l : List (String × ManifestEntry)) (s : LoopState) (p : List String),
      (∀ kv ∈ l, p = normalizeSegs (cursor ++ splitPath kv.1) →
        (s.manifestFiles.find? (fun e => e.1 = kv.1)).isSome = true) →
      (l.foldl (cleanupStep cursor) s).fs.read p = s.fs.read p := by
  intro l
  induction l with
  | nil => intro s p _; rfl
  | cons kv rest ih =>
    intro s p hp
    rw [List.foldl_cons]
    have hmf : (cleanupStep cursor s kv).manifestFiles = s.manifestFiles := by
      unfold cleanupStep
      split
      · rfl
      · split <;> rfl
    rw [ih (cleanupStep cursor s kv) p (fun kv' h hpeq => by
      rw [hmf]
      exact hp kv' (List.mem_cons_of_mem kv h) hpeq)]
    unfold cleanupStep
    split
    · rfl
    · rename_i hfind
      split
      · refine FS.read_erase_ne _ _ _ ?_
        intro hpeq
        exact hfind (by simp [hp kv (by simp) hpeq])
      · rfl

theorem install_skipped (root : List String) (sub : List (String × List Entry))
    (currentHash : String) (currentTag : Option String) (now : String)
    (st : DestState) (m : RawManifest)
    (hload : loadManifest st.manifestFile = some m)
    (hhash : m.submoduleGitHash = some currentHash) :
    installWithPreservation root sub currentHash currentTag now st = .skipped st := by
  unfold installWithPreservation
  rw [hload]
  show (if m.submoduleGitHash = some currentHash then InstallResult.skipped st
        else installBody root sub currentHash currentTag now st (some m)) = _
  rw [if_pos hhash]

/-- The initial loop state of a run. -/
def initLoopState (root : List String) (st : DestState) : LoopState :=
  { fs := st.fs.mkdirp (root ++ [".cursor"])
    manifestFiles := []
    stats := { updated := 0, added := 0, removed := 0, preserved := 0 }
    installed := []
    ops := [] }

/-- The state after the cleanup phase. -/
def afterCleanup (root : List String) (prev : Option RawManifest)
    (s1 : LoopState) : LoopState :=
  match prev with
  | some m => cleanupStale (root ++ [".cursor"]) m.files s1
  | none => s1

theorem install_ok_struct (root : List String) (sub : List (String × List Entry))
    (currentHash : String) (currentTag : Option String) (now : String)
    (st st' : DestState) (stats : Stats) (nm : RawManifest) (ops : List Op)
    (hok : installWithPreservation root sub currentHash currentTag now st
      = .ok st' stats nm ops) :
    ∃ s1,
      processDirs (root ++ [".cursor"]) sub now (initLoopState root st) DIRS_TO_COPY
        = .ok s1 ∧
      nm = { version := some "1.0.0", selectedLocation := none, installedAt := some now,
             submoduleGitHash := some currentHash, submoduleGitTag := currentTag,
             filesIsObject := true,
             files := (afterCleanup root (loadManifest st.manifestFile) s1).manifestFiles } ∧
      st' = { fs := (afterCleanup root (loadManifest st.manifestFile) s1).fs
              manifestFile := some (saveManifestFile nm)
              backupFile :=
                match loadManifest st.manifestFile with
                | some m => some (saveManifestFile m)
                | none => st.backupFile } ∧
      stats = (afterCleanup root (loadManifest st.manifestFile) s1).stats ∧
      ops = (afterCleanup root (loadManifest st.manifestFile) s1).ops := by
  unfold installWithPreservation at hok
  cases hload : loadManifest st.manifestFile with
  | some m =>
    rw [hload] at hok
    simp only [] at hok
    by_cases hh : m.submoduleGitHash = some currentHash
    · rw [if_pos hh] at hok
      exact absurd hok (by simp)
    · rw [if_neg hh] at hok
      unfold installBody at hok
      simp only [] at hok
      cases hpd : processDirs (root ++ [".cursor"]) sub now (initLoopState root st)
        DIRS_TO_COPY with
      | error e =>
        rw [show processDirs (root ++ [".cursor"]) sub now
            { fs := st.fs.mkdirp (root ++ [".cursor"]), manifestFiles := [],
              stats := { updated := 0, added := 0, removed := 0, preserved := 0 },
              installed := [], ops := [] } DIRS_TO_COPY = Except.error e from hpd] at hok
        exact absurd hok (by simp)
      | ok s1 =>
        rw [show processDirs (root ++ [".cursor"]) sub now
            { fs := st.fs.mkdirp (root ++ [".cursor"]), manifestFiles := [],
              stats := { updated := 0, added := 0, removed := 0, preserved := 0 },
              installed := [], ops := [] } DIRS_TO_COPY = Except.ok s1 from hpd] at hok
        refine ⟨s1, rfl, ?_⟩
        unfold afterCleanup
        simp only []
        injection hok with h1 h2 h3 h4
        refine ⟨h3.symm, ?_, h2.symm, h4.symm⟩
        rw [← h3, ← h1]
  | none =>
    rw [hload] at hok
    unfold installBody at hok
    simp only [] at hok
    cases hpd : processDirs (root ++ [".cursor"]) sub now (initLoopState root st)
      DIRS_TO_COPY with
    | error e =>
      rw [show processDirs (root ++ [".cursor"]) sub now
          { fs := st.fs.mkdirp (root ++ [".cursor"]), manifestFiles := [],
            stats := { updated := 0, added := 0, removed := 0, preserved := 0 },
            installed := [], ops := [] } DIRS_TO_COPY = Except.error e from hpd] at hok
      exact absurd hok (by simp)
    | ok s1 =>
      rw [show processDirs (root ++ [".cursor"]) sub now
          { fs := st.fs.mkdirp (root ++ [".cursor"]), manifestFiles := [],
            stats := { updated := 0, added := 0, removed := 0, preserved := 0 },
            installed := [], ops := [] } DIRS_TO_COPY = Except.ok s1 from hpd] at hok
      refine ⟨s1, rfl, ?_⟩
      unfold afterCleanup
      simp only []
      injection hok with h1 h2 h3 h4
      refine ⟨h3.symm, ?_, h2.symm, h4.symm⟩
      rw [← h3, ← h1]

theorem install_failed_struct (root : List String) (sub : List (String × List Entry))
    (currentHash : String) (currentTag : Option String) (now : String)
    (st st' : DestState) (msg : String)
    (hfail : installWithPreservation root sub currentHash currentTag now st
      = .failed msg st') :
    ∃ sErr,
      processDirs (root ++ [".cursor"]) sub now (initLoopState root st) DIRS_TO_COPY
        = .error (msg, sErr) ∧
      st' = { fs := rollbackFiles sErr.fs sErr.installed
              manifestFile :=
                match loadManifest st.manifestFile with
                | some m => some (saveManifestFile m)
                | none =>
                  match st.backupFile with
                  | some b => some b
                  | none => st.manifestFile
              backupFile :=
                match loadManifest st.manifestFile with
                | some m => some (saveManifestFile m)
                | none => st.backupFile } ∧
      (∀ m, loadManifest st.manifestFile = some m →
        m.submoduleGitHash ≠ some currentHash) := by
  unfold installWithPreservation at hfail
  cases hload : loadManifest st.manifestFile with
  | some m =>
    rw [hload] at hfail
    simp only [] at hfail
    by_cases hh : m.submoduleGitHash = some currentHash
    · rw [if_pos hh] at hfail
      exact absurd hfail (by simp)
    · rw [if_neg hh] at hfail
      unfold installBody at hfail
      simp only [] at hfail
      cases hpd : processDirs (root ++ [".cursor"]) sub now (initLoopState root st)
        DIRS_TO_COPY with
      | ok s1 =>
        rw [show processDirs (root ++ [".cursor"]) sub now
            { fs := st.fs.mkdirp (root ++ [".cursor"]), manifestFiles := [],
              stats := { updated := 0, added := 0, removed := 0, preserved := 0 },
              installed := [], ops := [] } DIRS_TO_COPY = Except.ok s1 from hpd] at hfail
        exact absurd hfail (by simp)
      | error e =>
        rw [show processDirs (root ++ [".cursor"]) sub now
            { fs := st.fs.mkdirp (root ++ [".cursor"]), manifestFiles := [],
              stats := { updated := 0, added := 0, removed := 0, preserved := 0 },
              installed := [], ops := [] } DIRS_TO_COPY = Except.error e from hpd] at hfail
        injection hfail with h1 h2
        refine ⟨e.2, ?_, ?_, ?_⟩
        · rw [← h1]
        · rw [← h2]
        · intro m' hm'
          injection hm' with hm'
          rw [← hm']
          exact hh
  | none =>
    rw [hload] at hfail
    unfold installBody at hfail
    simp only [] at hfail
    cases hpd : processDirs (root ++ [".cursor"]) sub now (initLoopState root st)
      DIRS_TO_COPY with
    | ok s1 =>
      rw [show processDirs (root ++ [".cursor"]) sub now
          { fs := st.fs.mkdirp (root ++ [".cursor"]), manifestFiles := [],
            stats := { updated := 0, added := 0, removed := 0, preserved := 0 },
            installed := [], ops := [] } DIRS_TO_COPY = Except.ok s1 from hpd] at hfail
      exact absurd hfail (by simp)
    | error e =>
      rw [show processDirs (root ++ [".cursor"]) sub now
          { fs := st.fs.mkdirp (root ++ [".cursor"]), manifestFiles := [],
            stats := { updated := 0, added := 0, removed := 0, preserved := 0 },
            installed := [], ops := [] } DIRS_TO_COPY = Except.error e from hpd] at hfail
      injection hfail with h1 h2
      refine ⟨e.2, ?_, ?_, ?_⟩
      · rw [← h1]
      · rw [← h2]
      · intro m' hm'
        exact absurd hm' (by simp)

/-! ## Decidable hypothesis forms for the claim theorems -/

/-- Decidable well-formedness of the modelled submodule content over the four
managed directories. -/
def WFSubDirs (sub : List (String × List Entry)) : Bool :=
  DIRS_TO_COPY.all (fun d =>
    match lookupSub sub d with
    | some es => WFEntries es
    | none => true)

theorem wfSubDirs_elim {sub : List (String × List Entry)} (h : WFSubDirs sub = true) :
    ∀ d ∈ DIRS_TO_COPY, ∀ es, lookupSub sub d = some es → WFEntries es = true := by
  intro d hd es hes
  unfold WFSubDirs at h
  rw [List.all_eq_true] at h
  have := h d hd
  rw [hes] at this
  exact this

/-- Decidable cleanliness of the previous manifest's keys, as loaded. -/
def cleanKeysLoaded (st : DestState) : Bool :=
  match loadManifest st.manifestFile with
  | some m => m.files.all (fun kv => cleanSegs (splitPath kv.1))
  | none => true

theorem cleanKeysLoaded_elim {st : DestState} (h : cleanKeysLoaded st = true) :
    ∀ m, loadManifest st.manifestFile = some m →
      ∀ kv ∈ m.files, cleanSegs (splitPath kv.1) = true := by
  intro m hm kv hkv
  unfold cleanKeysLoaded at h
  rw [hm] at h
  rw [List.all_eq_true] at h
  exact h kv hkv

/-- Decidable cleanliness of the destination file paths. -/
def cleanFSB (fs : FS) : Bool := fs.files.all (fun e => cleanSegs e.1)

theorem cleanFSB_elim {fs : FS} (h : cleanFSB fs = true) : cleanFS fs := by
  intro e he
  unfold cleanFSB at h
  rw [List.all_eq_true] at h
  exact h e he

theorem dirs_to_copy_clean : ∀ d ∈ DIRS_TO_COPY, cleanSeg d = true := by decide

theorem dirs_to_copy_nodup : DIRS_TO_COPY.Nodup := by decide

theorem cursor_clean {root : List String} (h : cleanSegs root = true) :
    cleanSegs (root ++ [".cursor"]) = true := by
  rw [cleanSegs_append, h]
  decide

/-! ## Claim C9 -/

/-- C9: `validatePath` only performs a raw string-prefix comparison between
the resolved path and the resolved base directory, with no path-separator
boundary check.  The concrete input resolves outside the `.cursor` root — into
the sibling directory `.cursor-evil`, whose name extends the base directory's
name — yet `validatePath` does not raise and returns the resolved path, so the
path-traversal error branch is not taken for it. -/
theorem c9_validatePath_prefix_bypass :
    validatePath ["home", ".cursor", "agents", "..", "..", ".cursor-evil", "x.md"]
        ["home", ".cursor"]
      = .ok ["home", ".cursor-evil", "x.md"] ∧
    normalizeSegs ["home", ".cursor", "agents", "..", "..", ".cursor-evil", "x.md"]
      = ["home", ".cursor-evil", "x.md"] ∧
    ¬ (["home", ".cursor"] <+: ["home", ".cursor-evil", "x.md"]) := by
  refine ⟨rfl, rfl, by decide⟩

/-! ## Claim C10 -/

/-- C10: in the location-aware installer running from an npm installation,
`getGitHash` returns `npm-` followed by the package version (or
`npm-unknown`), which always fails the 40-hex `submoduleGitHash` validation of
`loadManifestFromPath`; hence the save-then-load round trip of any manifest
such a run writes returns `null`, so the already-up-to-date short-circuit and
the remembered installation location never take effect on a later npm-mode
run. -/
theorem c10_npm_manifest_never_reloads (m : RawManifest) (pv : Option String)
    (hhash : m.submoduleGitHash = some (getGitHashNpm pv)) :
    loadManifestFromPath (saveManifestFile m) = none ∧
    shortCircuits3 (loadManifestFromPath (saveManifestFile m)) (getGitHashNpm pv) = false ∧
    usesSavedLocation3 (loadManifestFromPath (saveManifestFile m)) = false := by
  have hform : ∃ w, getGitHashNpm pv = "npm-" ++ w := by
    cases pv with
    | some v => exact ⟨v, rfl⟩
    | none => exact ⟨"unknown", rfl⟩
  obtain ⟨w, hw⟩ := hform
  have hdata : ("npm-" ++ w).data = 'n' :: 'p' :: 'm' :: '-' :: w.data := by
    rw [String.data_append]
    rfl
  have hinvalid : isValidGitHash (getGitHashNpm pv) = false := by
    rw [hw]
    unfold isValidGitHash
    rw [hdata]
    simp [isHexChar]
  have hne : ¬ getGitHashNpm pv = "" := by
    rw [hw]
    intro hc
    have hd : ("npm-" ++ w).data = ("" : String).data := by rw [hc]
    rw [hdata] at hd
    exact absurd hd (by simp)
  have hload : loadManifestFromPath (saveManifestFile m) = none := by
    show loadManifestFromPath (.json m) = none
    simp only [loadManifestFromPath]
    split
    · rfl
    split
    · rfl
    split
    · rfl
    split
    · rfl
    rename_i hcond
    exfalso
    apply hcond
    rw [hhash]
    simp [hinvalid, hne]
  exact ⟨hload, by rw [hload]; rfl, by rw [hload]; rfl⟩

/-- Witness for C10 at a concrete npm-mode manifest. -/
theorem c10_witness :
    loadManifestFromPath (saveManifestFile
      { version := some "1.0.0", selectedLocation := some "local",
        installedAt := some "2024-01-01", submoduleGitHash := some "npm-0.0.5",
        submoduleGitTag := some "v0.0.5", filesIsObject := true, files := [] }) = none :=
  (c10_npm_manifest_never_reloads
    { version := some "1.0.0", selectedLocation := some "local",
      installedAt := some "2024-01-01", submoduleGitHash := some "npm-0.0.5",
      submoduleGitTag := some "v0.0.5", filesIsObject := true, files := [] }
    (some "0.0.5") rfl).1

/-! ## Claim C8 -/

def InstallResult.isSkipped : InstallResult → Bool
  | .skipped _ => true
  | _ => false

theorem installBody_not_skipped (root : List String) (sub : List (String × List Entry))
    (currentHash : String) (currentTag : Option String) (now : String)
    (st : DestState) (prev : Option RawManifest) :
    (installBody root sub currentHash currentTag now st prev).isSkipped = false := by
  unfold installBody
  cases hpd : processDirs (root ++ [".cursor"]) sub now
      { fs := st.fs.mkdirp (root ++ [".cursor"]), manifestFiles := [],
        stats := { updated := 0, added := 0, removed := 0, preserved := 0 },
        installed := [], ops := [] } DIRS_TO_COPY with
  | ok s1 =>
    cases prev <;> simp only [] <;> rw [hpd] <;> rfl
  | error e =>
    cases prev <;> simp only [] <;> rw [hpd] <;> rfl

/-- A concrete manifest whose `submoduleGitHash` is the falsy empty string:
it fails the 40-hex convention, yet the truthiness guard skips the regex
test and the loader accepts it. -/
def c8m : RawManifest :=
  { version := some "1.0.0", selectedLocation := none, installedAt := some "t0",
    submoduleGitHash := some "", submoduleGitTag := none, filesIsObject := true,
    files := [] }

def c8st : DestState :=
  { fs := { files := [], dirs := [] },
    manifestFile := some (StoredFile.json c8m),
    backupFile := none }

/-- C8 does not hold on the code as stated: a manifest carrying a
`submoduleGitHash` that does not match the 40-hex convention is *not* always
discarded. The guard is `manifest.submoduleGitHash && !re.test(...)`, so the
falsy empty-string hash short-circuits the test: the manifest loads
successfully, and the subsequent run proceeds as an *update* (it writes a
backup of the previous manifest), not as a fresh installation. -/
theorem c8_counterexample :
    isValidGitHash "" = false ∧
    loadManifest (some (StoredFile.json c8m)) = some c8m ∧
    (∃ st' stats nm ops,
      installWithPreservation [] [] "h" none "t" c8st = .ok st' stats nm ops ∧
      st'.backupFile = some (saveManifestFile c8m)) :=
  ⟨rfl, rfl, ⟨_, _, _, _, rfl, rfl⟩⟩

/-- C8 amended: loading the manifest never hard-fails: whenever the stored
manifest file is missing, unparsable JSON, lacks a truthy `version` or an
object-typed `files` field, or carries a *truthy* `submoduleGitHash` that
fails the 40-hex convention, `loadManifest` returns `null` (after only a
warning), and the installation proceeds as a fresh installation — in
particular it never takes the already-up-to-date short-circuit. (A falsy
empty-string hash skips the format check and the manifest is accepted — see
the counterexample.) -/
theorem c8_manifest_load_fails_soft (stored : Option StoredFile)
    (h : stored = none ∨ stored = some StoredFile.invalidJson ∨
      ∃ m, stored = some (StoredFile.json m) ∧
        (m.version.getD "" = "" ∨ m.filesIsObject = false ∨
         ∃ hs, m.submoduleGitHash = some hs ∧ ¬ hs = "" ∧
           isValidGitHash hs = false)) :
    loadManifest stored = none ∧
    ∀ root sub currentHash currentTag now fs bf,
      (installWithPreservation root sub currentHash currentTag now
        { fs := fs, manifestFile := stored, backupFile := bf }).isSkipped = false := by
  have hload : loadManifest stored = none := by
    rcases h with h | h | ⟨m, hm, hbad⟩
    · rw [h]; rfl
    · rw [h]; rfl
    · rw [hm]
      simp only [loadManifest]
      rcases hbad with hb | hb | ⟨hs, hhs, hne, hinv⟩
      · rw [if_pos hb]
      · rw [hb]
        split
        · rfl
        · rfl
      · split
        · rfl
        · split
          · rfl
          · split
            · rfl
            · rename_i hcond
              exfalso
              apply hcond
              rw [hhs]
              simp [hinv, hne]
  refine ⟨hload, ?_⟩
  intro root sub currentHash currentTag now fs bf
  unfold installWithPreservation
  simp only []
  rw [show loadManifest ({ fs := fs, manifestFile := stored, backupFile := bf } :
    DestState).manifestFile = none from hload]
  exact installBody_not_skipped root sub currentHash currentTag now _ none

/-- Witness for C8: a manifest whose `version` field is missing is rejected
and the run does not short-circuit. -/
theorem c8_witness :
    loadManifest (some (StoredFile.json
      { version := none, selectedLocation := none, installedAt := none,
        submoduleGitHash := none, submoduleGitTag := none,
        filesIsObject := true, files := [] })) = none ∧
    (installWithPreservation [] [] "h" none "t"
      { fs := { files := [], dirs := [] },
        manifestFile := some (StoredFile.json
          { version := none, selectedLocation := none, installedAt := none,
            submoduleGitHash := none, submoduleGitTag := none,
            filesIsObject := true, files := [] }),
        backupFile := none }).isSkipped = false := by
  have h := c8_manifest_load_fails_soft (some (StoredFile.json
      { version := none, selectedLocation := none, installedAt := none,
        submoduleGitHash := none, submoduleGitTag := none,
        filesIsObject := true, files := [] }))
    (Or.inr (Or.inr ⟨_, rfl, Or.inl rfl⟩))
  exact ⟨h.1, h.2 [] [] "h" none "t" { files := [], dirs := [] } none⟩

/-! ## Claim C3 -/

/-- C3: when a valid previous manifest's stored `submoduleGitHash` equals the
hash currently computed from the source tree, `installWithPreservation`
short-circuits: the returned state is exactly the input state (zero file
mutations, no copies, deletions, backup writes or manifest writes) and the
outcome reports already-current.  Consequently, re-running immediately after
a successful installation with the same source (whose 40-hex hash loads back
successfully) mutates nothing and reports skipped. -/
theorem c3_idempotence :
    (∀ (root : List String) (sub : List (String × List Entry))
       (currentHash : String) (currentTag : Option String) (now : String)
       (st : DestState) (m : RawManifest),
      loadManifest st.manifestFile = some m →
      m.submoduleGitHash = some currentHash →
      installWithPreservation root sub currentHash currentTag now st
        = .skipped st) ∧
    (∀ (root : List String) (sub : List (String × List Entry))
       (currentHash : String) (currentTag : Option String) (now now' : String)
       (st st' : DestState) (stats : Stats) (nm : RawManifest) (ops : List Op),
      isValidGitHash currentHash = true →
      installWithPreservation root sub currentHash currentTag now st
        = .ok st' stats nm ops →
      installWithPreservation root sub currentHash currentTag now' st'
        = .skipped st') := by
  constructor
  · intro root sub currentHash currentTag now st m hload hhash
    exact install_skipped root sub currentHash currentTag now st m hload hhash
  · intro root sub currentHash currentTag now now' st st' stats nm ops hvalid hok
    obtain ⟨s1, _, hnm, hst', _, _⟩ :=
      install_ok_struct root sub currentHash currentTag now st st' stats nm ops hok
    have hmf : st'.manifestFile = some (StoredFile.json nm) := by
      rw [hst']
      rfl
    have hloadnm : loadManifest st'.manifestFile = some nm := by
      rw [hmf]
      simp only [loadManifest]
      rw [hnm]
      simp [hvalid]
    refine install_skipped root sub currentHash currentTag now' st' nm hloadnm ?_
    rw [hnm]

/-- The state written by the concrete first run used in the C3 witness. -/
def c3St1 : DestState :=
  { fs := { files := [], dirs := [[".cursor"]] }
    manifestFile := some (StoredFile.json
      { version := some "1.0.0", selectedLocation := none, installedAt := some "t",
        submoduleGitHash := some "aaaaaaaaaaaaaaaaaaaaaaaaaaaaaaaaaaaaaaaa",
        submoduleGitTag := none, filesIsObject := true, files := [] })
    backupFile := none }

/-- Witness for C3: a concrete successful run followed by a second run with
the same hash, which is skipped with the state unchanged. -/
theorem c3_witness :
    installWithPreservation [] [] "aaaaaaaaaaaaaaaaaaaaaaaaaaaaaaaaaaaaaaaa" none "t2" c3St1
      = .skipped c3St1 :=
  c3_idempotence.2 [] [] "aaaaaaaaaaaaaaaaaaaaaaaaaaaaaaaaaaaaaaaa" none "t" "t2"
    { fs := { files := [], dirs := [] }, manifestFile := none, backupFile := none }
    c3St1
    { updated := 0, added := 0, removed := 0, preserved := 0 }
    { version := some "1.0.0", selectedLocation := none, installedAt := some "t",
      submoduleGitHash := some "aaaaaaaaaaaaaaaaaaaaaaaaaaaaaaaaaaaaaaaa",
      submoduleGitTag := none, filesIsObject := true, files := [] }
    [] (by decide) (by decide)

/-! ## Claim C5 -/

def InstallResult.okStats : InstallResult → Option Stats
  | .ok _ stats _ _ => some stats
  | _ => none

def InstallResult.okOps : InstallResult → Option (List Op)
  | .ok _ _ _ ops => some ops
  | _ => none

def InstallResult.okState : InstallResult → Option DestState
  | .ok st _ _ _ => some st
  | _ => none

def InstallResult.okManifest : InstallResult → Option RawManifest
  | .ok _ _ nm _ => some nm
  | _ => none

/-- Concrete scenario for C5: a destination file occupies the managed path
`agents/a.md`, but the previous manifest (valid, different content identifier)
has no entry for it — an untracked user file at a managed path. -/
def c5sub : List (String × List Entry) := [("agents", [Entry.file "a.md" "A"])]

def c5prev : RawManifest :=
  { version := some "1.0.0", selectedLocation := none, installedAt := none,
    submoduleGitHash := none, submoduleGitTag := none, filesIsObject := true,
    files := [] }

def c5st : DestState :=
  { fs := { files := [([".cursor", "agents", "a.md"], "user")],
            dirs := [[".cursor"], [".cursor", "agents"]] }
    manifestFile := some (StoredFile.json c5prev)
    backupFile := none }

/-- C5 does not hold on the code: with the destination file at `agents/a.md`
untracked (the loaded previous manifest has an empty `files` map), the run
overwrites it but classifies the operation as *updated* — `stats.updated = 1`,
`stats.added = 0` — and the only log line for it is the ordinary `(updated)`
copy notice; no distinct "overwrote untracked file" notice is emitted. -/
theorem c5_counterexample :
    loadManifest c5st.manifestFile = some c5prev ∧
    c5prev.files = [] ∧
    c5st.fs.read [".cursor", "agents", "a.md"] = some "user" ∧
    (installWithPreservation [] c5sub "h" none "t" c5st).okStats
      = some { updated := 1, added := 0, removed := 0, preserved := 0 } ∧
    (installWithPreservation [] c5sub "h" none "t" c5st).okOps
      = some [Op.copied "agents/a.md" true] := by
  refine ⟨rfl, rfl, rfl, rfl, rfl⟩

/-- C5 amended: when a destination file already exists at a managed relative
path, the run unconditionally overwrites it and classifies the copy purely by
prior existence of the destination file — an existing file is logged and
counted as *updated* whether or not its key was tracked in the previous
manifest; the operation vocabulary of the run (`Op`) has no distinct
"overwrote untracked file" notice at all. -/
theorem c5_amended_existing_file_counted_updated (root : List String)
    (sub : List (String × List Entry)) (currentHash : String)
    (currentTag : Option String) (now : String) (st st' : DestState)
    (stats : Stats) (nm : RawManifest) (ops : List Op)
    (hroot : cleanSegs root = true)
    (hwf : WFSubDirs sub = true)
    (hok : installWithPreservation root sub currentHash currentTag now st
      = .ok st' stats nm ops)
    (d : String) (hd : d ∈ DIRS_TO_COPY)
    (rc : List String × String) (hrc : rc ∈ enumOf sub d) :
    Op.copied (renderKey d rc.1)
      ((st.fs.read ((root ++ [".cursor"]) ++ d :: rc.1)).isSome) ∈ ops := by
  obtain ⟨s1, hpd, _, _, _, hops⟩ :=
    install_ok_struct root sub currentHash currentTag now st st' stats nm ops hok
  have hcm := processDirs_copied_mem (root ++ [".cursor"]) sub now
    (cursor_clean hroot) DIRS_TO_COPY (wfSubDirs_elim hwf)
    (initLoopState root st) s1 dirs_to_copy_clean dirs_to_copy_nodup hpd d hd rc hrc
  have hread : (initLoopState root st).fs.read ((root ++ [".cursor"]) ++ d :: rc.1)
      = st.fs.read ((root ++ [".cursor"]) ++ d :: rc.1) := FS.read_mkdirp _ _ _
  rw [hread] at hcm
  rw [hops]
  unfold afterCleanup
  cases loadManifest st.manifestFile with
  | some m =>
    simp only []
    unfold cleanupStale
    exact (cleanupFold_copied (root ++ [".cursor"]) _ _ m.files s1).mpr hcm
  | none =>
    exact hcm

/-- Witness for C5's amended statement at the concrete scenario. -/
theorem c5_witness :
    Op.copied (renderKey "agents" ["a.md"])
      ((c5st.fs.read (([] ++ [".cursor"]) ++ "agents" :: ["a.md"])).isSome)
      ∈ [Op.copied "agents/a.md" true] := by
  exact c5_amended_existing_file_counted_updated [] c5sub "h" none "t" c5st
    { fs := { files := [([".cursor", "agents", "a.md"], "A")],
              dirs := [[".cursor"], [".cursor", "agents"]] }
      manifestFile := some (StoredFile.json
        { version := some "1.0.0", selectedLocation := none, installedAt := some "t",
          submoduleGitHash := some "h", submoduleGitTag := none, filesIsObject := true,
          files := [("agents/a.md",
            { source := "everything-claude-code/agents/a.md", installedAt := "t",
              checksum := "A" })] })
      backupFile := some (StoredFile.json c5prev) }
    { updated := 1, added := 0, removed := 0, preserved := 0 }
    { version := some "1.0.0", selectedLocation := none, installedAt := some "t",
      submoduleGitHash := some "h", submoduleGitTag := none, filesIsObject := true,
      files := [("agents/a.md",
        { source := "everything-claude-code/agents/a.md", installedAt := "t",
          checksum := "A" })] }
    [Op.copied "agents/a.md" true]
    (by decide) (by decide) (by decide) "agents" (by decide) (["a.md"], "A") (by decide)

/-! ## Claim C1 -/

/-- Concrete scenario for C1: the destination holds a user file at the
managed path `agents/a.md`; its relative path is not a key of the manifest
being replaced (whose `files` map is empty); the source enumeration also
produces that relative path. -/
def c1sub : List (String × List Entry) := [("agents", [Entry.file "a.md" "A"])]

def c1st : DestState :=
  { fs := { files := [([".cursor", "agents", "a.md"], "user")],
            dirs := [[".cursor"], [".cursor", "agents"]] }
    manifestFile := some (StoredFile.json
      { version := some "1.0.0", selectedLocation := none, installedAt := none,
        submoduleGitHash := none, submoduleGitTag := none, filesIsObject := true,
        files := [] })
    backupFile := none }

/-- C1 does not hold on the code: a user file sitting at a relative path the
source enumeration also produces is silently overwritten — after a completed
reconcile its content is the source content, not its previous bytes. -/
theorem c1_counterexample :
    (∃ m, loadManifest c1st.manifestFile = some m ∧ m.files = []) ∧
    c1st.fs.read [".cursor", "agents", "a.md"] = some "user" ∧
    (installWithPreservation [] c1sub "h" none "t" c1st).okState.map
      (fun st => st.fs.read [".cursor", "agents", "a.md"]) = some (some "A") ∧
    ("user" : String) ≠ "A" := by
  refine ⟨⟨_, rfl, rfl⟩, rfl, rfl, by decide⟩

/-- Decidable form: the relative path `q` is not (the split form of) a key of
the previous manifest as loaded. -/
def notAPrevKey (st : DestState) (q : List String) : Bool :=
  match loadManifest st.manifestFile with
  | some m => m.files.all (fun kv => decide (¬ splitPath kv.1 = q))
  | none => true

theorem notAPrevKey_elim {st : DestState} {q : List String}
    (h : notAPrevKey st q = true) :
    ∀ m, loadManifest st.manifestFile = some m →
      ∀ kv ∈ m.files, ¬ splitPath kv.1 = q := by
  intro m hm kv hkv
  unfold notAPrevKey at h
  rw [hm, List.all_eq_true] at h
  have := h kv hkv
  simpa using this

/-- C1 amended: after a completed reconcile, every destination file whose
relative path is neither a key of the (well-formed) manifest being replaced
nor a relative path produced by the source enumeration is untouched: it still
exists with byte-identical content (and in particular is never deleted). -/
theorem c1_user_files_preserved (root : List String)
    (sub : List (String × List Entry)) (currentHash : String)
    (currentTag : Option String) (now : String) (st st' : DestState)
    (stats : Stats) (nm : RawManifest) (ops : List Op) (q : List String)
    (hroot : cleanSegs root = true)
    (hwf : WFSubDirs sub = true)
    (hkeys : cleanKeysLoaded st = true)
    (hok : installWithPreservation root sub currentHash currentTag now st
      = .ok st' stats nm ops)
    (hnotsrc : ∀ d ∈ DIRS_TO_COPY, ∀ rc ∈ enumOf sub d, q ≠ d :: rc.1)
    (hnotkey : notAPrevKey st q = true) :
    st'.fs.read ((root ++ [".cursor"]) ++ q) = st.fs.read ((root ++ [".cursor"]) ++ q) := by
  obtain ⟨s1, hpd, _, hst', _, _⟩ :=
    install_ok_struct root sub currentHash currentTag now st st' stats nm ops hok
  have hs1read : s1.fs.read ((root ++ [".cursor"]) ++ q)
      = st.fs.read ((root ++ [".cursor"]) ++ q) := by
    have := processDirs_read_ne (root ++ [".cursor"]) sub now (cursor_clean hroot)
      DIRS_TO_COPY (wfSubDirs_elim hwf) (initLoopState root st) s1
      dirs_to_copy_clean hpd ((root ++ [".cursor"]) ++ q)
      (fun d hd rc hrc heq => hnotsrc d hd rc hrc (List.append_cancel_left heq))
    rw [this]
    exact FS.read_mkdirp _ _ _
  have hfs' : st'.fs = (afterCleanup root (loadManifest st.manifestFile) s1).fs := by
    rw [hst']
  rw [hfs']
  unfold afterCleanup
  cases hload : loadManifest st.manifestFile with
  | none => exact hs1read
  | some m =>
    simp only []
    unfold cleanupStale
    rw [cleanupFold_read_keep (root ++ [".cursor"]) m.files s1 _ ?_]
    · exact hs1read
    · intro kv hkv hpeq
      exfalso
      have hclean : cleanSegs (splitPath kv.1) = true :=
        cleanKeysLoaded_elim hkeys m hload kv hkv
      have hnorm : normalizeSegs ((root ++ [".cursor"]) ++ splitPath kv.1)
          = (root ++ [".cursor"]) ++ splitPath kv.1 := by
        apply normalizeSegs_clean
        rw [cleanSegs_append, cursor_clean hroot, hclean]
        rfl
      rw [hnorm] at hpeq
      exact notAPrevKey_elim hnotkey m hload kv hkv
        (List.append_cancel_left hpeq.symm)

/-- Witness for C1's amended statement: a user file outside the managed
namespace survives a concrete fresh installation byte-identically. -/
theorem c1_witness :
    ({ fs := { files := [([".cursor", "agents", "a.md"], "A"),
                         ([".cursor", "docs", "u.md"], "U")],
               dirs := [[".cursor"], [".cursor", "docs"], [".cursor", "agents"]] }
       manifestFile := some (saveManifestFile
         { version := some "1.0.0", selectedLocation := none, installedAt := some "t",
           submoduleGitHash := some "h", submoduleGitTag := none, filesIsObject := true,
           files := [("agents/a.md",
             { source := "everything-claude-code/agents/a.md", installedAt := "t",
               checksum := "A" })] })
       backupFile := none } : DestState).fs.read (([] ++ [".cursor"]) ++ ["docs", "u.md"])
      = ({ fs := { files := [([".cursor", "docs", "u.md"], "U")],
                   dirs := [[".cursor"], [".cursor", "docs"]] }
           manifestFile := none
           backupFile := none } : DestState).fs.read (([] ++ [".cursor"]) ++ ["docs", "u.md"]) :=
  c1_user_files_preserved [] c1sub "h" none "t"
    { fs := { files := [([".cursor", "docs", "u.md"], "U")],
              dirs := [[".cursor"], [".cursor", "docs"]] }
      manifestFile := none
      backupFile := none }
    { fs := { files := [([".cursor", "agents", "a.md"], "A"),
                        ([".cursor", "docs", "u.md"], "U")],
              dirs := [[".cursor"], [".cursor", "docs"], [".cursor", "agents"]] }
      manifestFile := some (saveManifestFile
        { version := some "1.0.0", selectedLocation := none, installedAt := some "t",
          submoduleGitHash := some "h", submoduleGitTag := none, filesIsObject := true,
          files := [("agents/a.md",
            { source := "everything-claude-code/agents/a.md", installedAt := "t",
              checksum := "A" })] })
      backupFile := none }
    { updated := 0, added := 1, removed := 0, preserved := 0 }
    { version := some "1.0.0", selectedLocation := none, installedAt := some "t",
      submoduleGitHash := some "h", submoduleGitTag := none, filesIsObject := true,
      files := [("agents/a.md",
        { source := "everything-claude-code/agents/a.md", installedAt := "t",
          checksum := "A" })] }
    [Op.copied "agents/a.md" false]
    ["docs", "u.md"]
    (by decide) (by decide) (by decide) (by decide) (by decide) (by decide)

/-! ## Claim C2 -/

theorem mfEntries_keys (d : String) (now : String) (L : List (List String × String)) :
    (mfEntries d now L).map Prod.fst = L.map (fun rc => renderKey d rc.1) := by
  simp [mfEntries]

theorem expectedMf_key_complete (sub : List (String × List Entry)) (now : String) :
    ∀ (ds : List String), ∀ d ∈ ds, ∀ rc ∈ enumOf sub d,
      renderKey d rc.1 ∈ (expectedMf sub now ds).map Prod.fst := by
  intro ds
  induction ds with
  | nil => intro d hd; simp at hd
  | cons d0 rest ih =>
    intro d hd rc hrc
    rcases List.mem_cons.mp hd with h | h
    · subst h
      unfold expectedMf
      rw [List.map_append, mfEntries_keys]
      exact List.mem_append_left _ (List.mem_map_of_mem _ hrc)
    · unfold expectedMf
      rw [List.map_append]
      exact List.mem_append_right _ (ih d h rc hrc)

theorem expectedMf_key_sound (sub : List (String × List Entry)) (now : String) :
    ∀ (ds : List String), ∀ k ∈ (expectedMf sub now ds).map Prod.fst,
      ∃ d ∈ ds, ∃ rc ∈ enumOf sub d, k = renderKey d rc.1 := by
  intro ds
  induction ds with
  | nil => intro k hk; simp [expectedMf] at hk
  | cons d0 rest ih =>
    intro k hk
    unfold expectedMf at hk
    rw [List.map_append, List.mem_append, mfEntries_keys] at hk
    rcases hk with hk | hk
    · rw [List.mem_map] at hk
      obtain ⟨rc, hrc, hkey⟩ := hk
      exact ⟨d0, by simp, rc, hrc, hkey.symm⟩
    · obtain ⟨d, hd, rc, hrc, hkey⟩ := ih k hk
      exact ⟨d, List.mem_cons_of_mem d0 hd, rc, hrc, hkey⟩

theorem expectedMf_keys_nodup (sub : List (String × List Entry)) (now : String) :
    ∀ (ds : List String),
      (∀ d ∈ ds, ∀ es, lookupSub sub d = some es → WFEntries es = true) →
      (∀ d ∈ ds, cleanSeg d = true) →
      ds.Nodup →
      ((expectedMf sub now ds).map Prod.fst).Nodup := by
  intro ds
  induction ds with
  | nil => intro _ _ _; simp [expectedMf]
  | cons d0 rest ih =>
    intro hwf hcl hnd
    rw [List.nodup_cons] at hnd
    unfold expectedMf
    rw [List.map_append, List.nodup_append]
    have hprops0 := enumOf_props sub d0 (fun es h => hwf d0 (by simp) es h)
    refine ⟨?_, ih (fun d h => hwf d (List.mem_cons_of_mem d0 h))
      (fun d h => hcl d (List.mem_cons_of_mem d0 h)) hnd.2, ?_⟩
    · rw [mfEntries_keys,
        show (fun rc : List String × String => renderKey d0 rc.1)
          = renderKey d0 ∘ (fun rc => rc.1) from rfl, ← List.map_map]
      refine List.Nodup.map_on ?_ hprops0.2
      intro x hx y hy hxy
      rw [List.mem_map] at hx hy
      obtain ⟨rcx, hrcx, hex⟩ := hx
      obtain ⟨rcy, hrcy, hey⟩ := hy
      have hcx : cleanSegs x = true := hex ▸ (hprops0.1 rcx hrcx).1
      have hcy : cleanSegs y = true := hey ▸ (hprops0.1 rcy hrcy).1
      exact (renderKey_inj (hcl d0 (by simp)) hcx (hcl d0 (by simp)) hcy hxy).2
    · intro k hk1 hk2
      rw [mfEntries_keys, List.mem_map] at hk1
      obtain ⟨rc1, hrc1, hkey1⟩ := hk1
      obtain ⟨d, hd, rc2, hrc2, hkey2⟩ := expectedMf_key_sound sub now rest k hk2
      have hpropsd := enumOf_props sub d (fun es h => hwf d (List.mem_cons_of_mem d0 hd) es h)
      have heq : renderKey d0 rc1.1 = renderKey d rc2.1 := hkey1.trans hkey2
      have := renderKey_inj (hcl d0 (by simp)) (hprops0.1 rc1 hrc1).1
        (hcl d (List.mem_cons_of_mem d0 hd)) (hpropsd.1 rc2 hrc2).1 heq
      exact hnd.1 (this.1 ▸ hd)

/-- C2: after a successful, non-short-circuited reconcile, every eligible
source file (regular `.md` file, symlinks excluded) at relative path `p`
under a managed directory has a byte-identical copy at `destinationRoot/p`,
and the new manifest's files map contains at least one entry for each such
`p`, no entry for any other path, and no duplicate keys — hence exactly one
entry per eligible file. -/
theorem c2_convergence (root : List String) (sub : List (String × List Entry))
    (currentHash : String) (currentTag : Option String) (now : String)
    (st st' : DestState) (stats : Stats) (nm : RawManifest) (ops : List Op)
    (hroot : cleanSegs root = true)
    (hwf : WFSubDirs sub = true)
    (hkeys : cleanKeysLoaded st = true)
    (hok : installWithPreservation root sub currentHash currentTag now st
      = .ok st' stats nm ops) :
    (∀ d ∈ DIRS_TO_COPY, ∀ rc ∈ enumOf sub d,
      st'.fs.read ((root ++ [".cursor"]) ++ d :: rc.1) = some rc.2) ∧
    (∀ d ∈ DIRS_TO_COPY, ∀ rc ∈ enumOf sub d,
      renderKey d rc.1 ∈ nm.files.map Prod.fst) ∧
    (∀ k ∈ nm.files.map Prod.fst,
      ∃ d ∈ DIRS_TO_COPY, ∃ rc ∈ enumOf sub d, k = renderKey d rc.1) ∧
    (nm.files.map Prod.fst).Nodup := by
  obtain ⟨s1, hpd, hnm, hst', _, _⟩ :=
    install_ok_struct root sub currentHash currentTag now st st' stats nm ops hok
  have hmf : s1.manifestFiles = expectedMf sub now DIRS_TO_COPY := by
    have := processDirs_manifest (root ++ [".cursor"]) sub now (cursor_clean hroot)
      DIRS_TO_COPY (wfSubDirs_elim hwf) (initLoopState root st) s1
      dirs_to_copy_clean hpd
    simpa [initLoopState] using this
  have hnmfiles : nm.files = expectedMf sub now DIRS_TO_COPY := by
    rw [hnm]
    show (afterCleanup root (loadManifest st.manifestFile) s1).manifestFiles = _
    unfold afterCleanup
    cases loadManifest st.manifestFile with
    | none => exact hmf
    | some m =>
      simp only []
      unfold cleanupStale
      rw [(cleanupFold_fields (root ++ [".cursor"]) m.files s1).1]
      exact hmf
  refine ⟨?_, ?_, ?_, ?_⟩
  · intro d hd rc hrc
    have hs1 : s1.fs.read ((root ++ [".cursor"]) ++ d :: rc.1) = some rc.2 :=
      processDirs_read_mem (root ++ [".cursor"]) sub now (cursor_clean hroot)
        DIRS_TO_COPY (wfSubDirs_elim hwf) (initLoopState root st) s1
        dirs_to_copy_clean dirs_to_copy_nodup hpd d hd rc hrc
    have hfs' : st'.fs = (afterCleanup root (loadManifest st.manifestFile) s1).fs := by
      rw [hst']
    rw [hfs']
    unfold afterCleanup
    cases hload : loadManifest st.manifestFile with
    | none => exact hs1
    | some m =>
      simp only []
      unfold cleanupStale
      rw [cleanupFold_read_keep (root ++ [".cursor"]) m.files s1 _ ?_]
      · exact hs1
      · intro kv hkv hpeq
        have hclean : cleanSegs (splitPath kv.1) = true :=
          cleanKeysLoaded_elim hkeys m hload kv hkv
        have hnorm : normalizeSegs ((root ++ [".cursor"]) ++ splitPath kv.1)
            = (root ++ [".cursor"]) ++ splitPath kv.1 := by
          apply normalizeSegs_clean
          rw [cleanSegs_append, cursor_clean hroot, hclean]
          rfl
        rw [hnorm] at hpeq
        have hsp : splitPath kv.1 = d :: rc.1 := (List.append_cancel_left hpeq).symm
        have hk : kv.1 = renderKey d rc.1 := by
          have hj := joinSegs_splitPath kv.1
          rw [hsp] at hj
          exact hj.symm
        have hmem := expectedMf_key_complete sub now DIRS_TO_COPY d hd rc hrc
        rw [← hmf, List.mem_map] at hmem
        obtain ⟨e, he, hke⟩ := hmem
        rw [hk, List.find?_isSome]
        exact ⟨e, he, by simp [hke]⟩
  · intro d hd rc hrc
    rw [hnmfiles]
    exact expectedMf_key_complete sub now DIRS_TO_COPY d hd rc hrc
  · intro k hk
    rw [hnmfiles] at hk
    exact expectedMf_key_sound sub now DIRS_TO_COPY k hk
  · rw [hnmfiles]
    exact expectedMf_keys_nodup sub now DIRS_TO_COPY (wfSubDirs_elim hwf)
      dirs_to_copy_clean dirs_to_copy_nodup

/-- Concrete source tree and fresh destination for exercising C2. -/
def c2sub : List (String × List Entry) := [("skills", [Entry.file "s.md" "S"])]

def c2st0 : DestState :=
  { fs := { files := [], dirs := [] }, manifestFile := none, backupFile := none }

def c2nm : RawManifest :=
  { version := some "1.0.0", selectedLocation := none, installedAt := some "t",
    submoduleGitHash := some "h", submoduleGitTag := none, filesIsObject := true,
    files := [("skills/s.md",
      { source := "everything-claude-code/skills/s.md", installedAt := "t",
        checksum := "S" })] }

def c2stOut : DestState :=
  { fs := { files := [([".cursor", "skills", "s.md"], "S")],
            dirs := [[".cursor"], [".cursor", "skills"]] }
    manifestFile := some (saveManifestFile c2nm)
    backupFile := none }

/-- Witness for C2 at a concrete fresh installation. -/
theorem c2_witness :
    (∀ d ∈ DIRS_TO_COPY, ∀ rc ∈ enumOf c2sub d,
      c2stOut.fs.read (([] ++ [".cursor"]) ++ d :: rc.1) = some rc.2) ∧
    (∀ d ∈ DIRS_TO_COPY, ∀ rc ∈ enumOf c2sub d,
      renderKey d rc.1 ∈ c2nm.files.map Prod.fst) ∧
    (∀ k ∈ c2nm.files.map Prod.fst,
      ∃ d ∈ DIRS_TO_COPY, ∃ rc ∈ enumOf c2sub d, k = renderKey d rc.1) ∧
    (c2nm.files.map Prod.fst).Nodup :=
  c2_convergence [] c2sub "h" none "t" c2st0 c2stOut
    { updated := 0, added := 1, removed := 0, preserved := 0 } c2nm
    [Op.copied "skills/s.md" false]
    (by decide) (by decide) (by decide) (by decide)

/-! ## Claim C4 -/

/-- Source tree for C4: `agents` holds one genuine file and a crafted
parent-directory entry whose enumerated path escapes the destination root. -/
def c4sub : List (String × List Entry) :=
  [("agents", [Entry.file "a.md" "new",
               Entry.dir ".." [Entry.dir ".." [Entry.file "evil.md" "E"]]])]

def c4prev : RawManifest :=
  { version := some "1.0.0", selectedLocation := some "local", installedAt := some "t0",
    submoduleGitHash := none, submoduleGitTag := none, filesIsObject := true,
    files := [("agents/a.md",
      { source := "everything-claude-code/agents/a.md", installedAt := "t0",
        checksum := "old" })] }

def c4st : DestState :=
  { fs := { files := [([".cursor", "agents", "a.md"], "old")],
            dirs := [[".cursor"], [".cursor", "agents"]] }
    manifestFile := some (saveManifestFile c4prev)
    backupFile := none }

/-- C4 does not hold on the code as stated: after a path-traversal abort the
destination is *not* in its pre-reconciliation state. Rollback deletes only
files the run newly created; a pre-existing tracked file that was already
overwritten before the failing entry keeps its new content ("new", not the
pre-reconciliation "old"), even though the previous manifest is restored. -/
theorem c4_counterexample :
    c4st.fs.read [".cursor", "agents", "a.md"] = some "old" ∧
    (∃ msg st', installWithPreservation [] c4sub "h" none "t" c4st = .failed msg st' ∧
      st'.fs.read [".cursor", "agents", "a.md"] = some "new" ∧
      st'.manifestFile = c4st.manifestFile) ∧
    ("new" : String) ≠ "old" :=
  ⟨rfl, ⟨_, _, rfl, rfl, rfl⟩, by decide⟩

/-- The previous manifest, as loaded, does not trigger the short-circuit. -/
def noShortCircuit (st : DestState) (currentHash : String) : Bool :=
  match loadManifest st.manifestFile with
  | some m => !(m.submoduleGitHash = some currentHash)
  | none => true

theorem noShortCircuit_elim {st : DestState} {currentHash : String}
    (h : noShortCircuit st currentHash = true) :
    ∀ m, loadManifest st.manifestFile = some m →
      ¬ m.submoduleGitHash = some currentHash := by
  intro m hm
  unfold noShortCircuit at h
  rw [hm] at h
  simpa using h

/-- Some enumerated source file's destination path fails `validatePath`. -/
def hasTraversal (root : List String) (sub : List (String × List Entry)) : Bool :=
  DIRS_TO_COPY.any fun d =>
    match lookupSub sub d with
    | some es => (getMdFilesEntries es).any fun rc =>
        match validatePath ((root ++ [".cursor"]) ++ d :: rc.1) (root ++ [".cursor"]) with
        | .ok _ => false
        | .error _ => true
    | none => false

theorem hasTraversal_elim (root : List String) (sub : List (String × List Entry))
    (h : hasTraversal root sub = true) :
    ∃ d ∈ DIRS_TO_COPY, ∃ es, lookupSub sub d = some es ∧
      ∃ rc ∈ getMdFilesEntries es, ∃ e,
        validatePath ((root ++ [".cursor"]) ++ d :: rc.1) (root ++ [".cursor"]) = .error e := by
  unfold hasTraversal at h
  rw [List.any_eq_true] at h
  obtain ⟨d, hd, hany⟩ := h
  cases hl : lookupSub sub d with
  | none => rw [hl] at hany; simp at hany
  | some es =>
    rw [hl] at hany
    simp only [] at hany
    rw [List.any_eq_true] at hany
    obtain ⟨rc, hrc, hv⟩ := hany
    cases hvp : validatePath ((root ++ [".cursor"]) ++ d :: rc.1) (root ++ [".cursor"]) with
    | ok v => rw [hvp] at hv; simp at hv
    | error e => exact ⟨d, hd, es, hl, rc, hrc, e, hvp⟩

/-- C4 amended: when some enumerated source file's destination path fails
validation and the run is not short-circuited, reconcile aborts with a
path-traversal error; after the automatic rollback no *newly created* file
survives (every path absent before the run is absent after it) and the
previous manifest is restored as current. (Pre-existing files overwritten
before the failure are not reverted — see the counterexample.) -/
theorem c4_traversal_rollback (root : List String) (sub : List (String × List Entry))
    (currentHash : String) (currentTag : Option String) (now : String)
    (st : DestState)
    (hns : noShortCircuit st currentHash = true)
    (htrav : hasTraversal root sub = true) :
    ∃ msg st',
      installWithPreservation root sub currentHash currentTag now st = .failed msg st' ∧
      (∃ fp, msg = "Path traversal detected: " ++ fp) ∧
      (∀ p, st.fs.read p = none → st'.fs.read p = none) ∧
      (∀ m, loadManifest st.manifestFile = some m →
        st'.manifestFile = some (saveManifestFile m)) := by
  obtain ⟨d, hd, es, hles, rc, hrc, e, hve⟩ := hasTraversal_elim root sub htrav
  obtain ⟨msg, sE, herr⟩ := processDirs_err_of_fail (root ++ [".cursor"]) sub now
    DIRS_TO_COPY (initLoopState root st) ⟨d, hd, es, hles, rc, hrc, e, hve⟩
  have hmsg := processDirs_error_form (root ++ [".cursor"]) sub now DIRS_TO_COPY
    (initLoopState root st) msg sE herr
  have hnt : NewTracked st.fs sE := by
    refine (newTracked_processDirs (root ++ [".cursor"]) sub now st.fs DIRS_TO_COPY
      (initLoopState root st) ?_).2 msg sE herr
    intro p hp hps
    exfalso
    rw [show (initLoopState root st).fs = st.fs.mkdirp (root ++ [".cursor"]) from rfl,
      FS.read_mkdirp, hp] at hps
    simp at hps
  have hreadnone : ∀ p, st.fs.read p = none →
      (rollbackFiles sE.fs sE.installed).read p = none := by
    intro p hp
    by_cases hse : (sE.fs.read p).isSome = true
    · exact rollbackFiles_removes p sE.installed sE.fs (hnt p hp hse)
    · refine rollbackFiles_read_none p sE.installed sE.fs ?_
      cases hr : sE.fs.read p
      · rfl
      · rw [hr] at hse; simp at hse
  cases hload : loadManifest st.manifestFile with
  | some m =>
    refine ⟨msg, { fs := rollbackFiles sE.fs sE.installed
                   manifestFile := some (saveManifestFile m)
                   backupFile := some (saveManifestFile m) }, ?_, hmsg, hreadnone, ?_⟩
    · unfold installWithPreservation
      rw [hload]
      show (if m.submoduleGitHash = some currentHash then InstallResult.skipped st
            else installBody root sub currentHash currentTag now st (some m)) = _
      rw [if_neg (noShortCircuit_elim hns m hload)]
      unfold installBody
      simp only []
      rw [show processDirs (root ++ [".cursor"]) sub now
          { fs := st.fs.mkdirp (root ++ [".cursor"]), manifestFiles := [],
            stats := { updated := 0, added := 0, removed := 0, preserved := 0 },
            installed := [], ops := [] } DIRS_TO_COPY = Except.error (msg, sE) from herr]
    · intro m' hm'
      injection hm' with hm'
      rw [← hm']
  | none =>
    refine ⟨msg, { fs := rollbackFiles sE.fs sE.installed
                   manifestFile :=
                     match st.backupFile with
                     | some b => some b
                     | none => st.manifestFile
                   backupFile := st.backupFile }, ?_, hmsg, hreadnone, ?_⟩
    · unfold installWithPreservation
      rw [hload]
      unfold installBody
      simp only []
      rw [show processDirs (root ++ [".cursor"]) sub now
          { fs := st.fs.mkdirp (root ++ [".cursor"]), manifestFiles := [],
            stats := { updated := 0, added := 0, removed := 0, preserved := 0 },
            installed := [], ops := [] } DIRS_TO_COPY = Except.error (msg, sE) from herr]
    · intro m' hm'
      exact absurd hm' (by simp)

/-- Witness for C4's amended statement at a concrete crafted source tree. -/
theorem c4_witness :
    ∃ msg st',
      installWithPreservation [] c4sub "h" none "t" c4st = .failed msg st' ∧
      (∃ fp, msg = "Path traversal detected: " ++ fp) ∧
      (∀ p, c4st.fs.read p = none → st'.fs.read p = none) ∧
      (∀ m, loadManifest c4st.manifestFile = some m →
        st'.manifestFile = some (saveManifestFile m)) :=
  c4_traversal_rollback [] c4sub "h" none "t" c4st (by decide) (by decide)

/-! ## Claim C6 -/

/-- C6 scenario: the destination holds a stale tracked file `agents/old.md`
(key of the previous manifest, absent from the new enumeration). -/
def c6sub : List (String × List Entry) := [("agents", [Entry.file "a.md" "A"])]

def c6prev : RawManifest :=
  { version := some "1.0.0", selectedLocation := none, installedAt := some "t0",
    submoduleGitHash := none, submoduleGitTag := none, filesIsObject := true,
    files := [("agents/old.md",
      { source := "everything-claude-code/agents/old.md", installedAt := "t0",
        checksum := "O" })] }

def c6st : DestState :=
  { fs := { files := [([".cursor", "agents", "old.md"], "O")],
            dirs := [[".cursor"], [".cursor", "agents"]] }
    manifestFile := some (saveManifestFile c6prev)
    backupFile := none }

/-- C6 does not hold on the code: a stale tracked file (previous-manifest key
absent from the new enumeration) is counted as *preserved* — the per-directory
count checks only the new manifest, before cleanup — and the very same file is
then removed as stale by the cleanup pass, so a file that reconcile
subsequently removes as stale *is* counted as preserved. -/
theorem c6_counterexample :
    ∃ st' stats nm ops,
      installWithPreservation [] c6sub "h" none "t" c6st = .ok st' stats nm ops ∧
      stats.preserved = 1 ∧ stats.removed = 1 ∧
      Op.preservedUser "agents/old.md" ∈ ops ∧
      Op.removedStale "agents/old.md" ∈ ops ∧
      st'.fs.read [".cursor", "agents", "old.md"] = none :=
  ⟨_, _, _, _, rfl, rfl, rfl, by decide, by decide, rfl⟩

/-- C6 amended: after a completed reconcile, a path is counted/logged as
*preserved* exactly when, in a managed source-backed directory, the
pre-reconciliation destination holds an `.md` file at a relative path that the
new enumeration does not produce — with no reference to the previous manifest:
stale tracked files satisfy this condition and are counted preserved even
though cleanup subsequently removes them. -/
theorem c6_preserved_iff (root : List String) (sub : List (String × List Entry))
    (currentHash : String) (currentTag : Option String) (now : String)
    (st st' : DestState) (stats : Stats) (nm : RawManifest) (ops : List Op)
    (hroot : cleanSegs root = true)
    (hwf : WFSubDirs sub = true)
    (hfsb : cleanFSB st.fs = true)
    (hok : installWithPreservation root sub currentHash currentTag now st
      = .ok st' stats nm ops)
    (k : String) :
    Op.preservedUser k ∈ ops ↔
      ∃ d ∈ DIRS_TO_COPY, PreservedCond (root ++ [".cursor"]) sub st.fs d k := by
  obtain ⟨s1, hpd, _, _, _, hops⟩ :=
    install_ok_struct root sub currentHash currentTag now st st' stats nm ops hok
  have hchar := processDirs_preserved_char (root ++ [".cursor"]) sub now
    (cursor_clean hroot) DIRS_TO_COPY (wfSubDirs_elim hwf) (initLoopState root st) s1
    dirs_to_copy_clean dirs_to_copy_nodup
    (cleanFS_mkdirp (cleanFSB_elim hfsb) (root ++ [".cursor"]))
    (fun d _ q _ => rfl) hpd k
  have hchar' : Op.preservedUser k ∈ s1.ops ↔
      ∃ d ∈ DIRS_TO_COPY, PreservedCond (root ++ [".cursor"]) sub st.fs d k := by
    constructor
    · intro h
      rcases hchar.mp h with h0 | ⟨d, hd, hc⟩
      · exact absurd h0 (by simp [initLoopState])
      · exact ⟨d, hd, hc⟩
    · intro h
      obtain ⟨d, hd, hc⟩ := h
      exact hchar.mpr (Or.inr ⟨d, hd, hc⟩)
  rw [hops]
  show Op.preservedUser k ∈ (afterCleanup root (loadManifest st.manifestFile) s1).ops ↔ _
  unfold afterCleanup
  cases loadManifest st.manifestFile with
  | none => exact hchar'
  | some m =>
    simp only []
    unfold cleanupStale
    exact (cleanupFold_preservedUser (root ++ [".cursor"]) k m.files s1).trans hchar'

def c6nm : RawManifest :=
  { version := some "1.0.0", selectedLocation := none, installedAt := some "t",
    submoduleGitHash := some "h", submoduleGitTag := none, filesIsObject := true,
    files := [("agents/a.md",
      { source := "everything-claude-code/agents/a.md", installedAt := "t",
        checksum := "A" })] }

def c6stOut : DestState :=
  { fs := { files := [([".cursor", "agents", "a.md"], "A")],
            dirs := [[".cursor"], [".cursor", "agents"]] }
    manifestFile := some (saveManifestFile c6nm)
    backupFile := some (saveManifestFile c6prev) }

/-- Witness for C6's amended characterization at a concrete run. -/
theorem c6_witness :
    (Op.preservedUser "agents/old.md" ∈
      [Op.copied "agents/a.md" false, Op.preservedUser "agents/old.md",
       Op.removedStale "agents/old.md"] ↔
      ∃ d ∈ DIRS_TO_COPY,
        PreservedCond ([] ++ [".cursor"]) c6sub c6st.fs d "agents/old.md") :=
  c6_preserved_iff [] c6sub "h" none "t" c6st c6stOut
    { updated := 0, added := 1, removed := 1, preserved := 1 } c6nm
    [Op.copied "agents/a.md" false, Op.preservedUser "agents/old.md",
     Op.removedStale "agents/old.md"]
    (by decide) (by decide) (by decide) (by decide) "agents/old.md"

/-! ## Claim C7 -/

theorem pruneAux_succ (n : Nat) (fs : FS) (d : List String) :
    pruneAux (n + 1) fs d =
      if d ∈ fs.dirs then
        if dirIsEmpty ((subdirsOf fs d).foldl (fun acc q => pruneAux n acc q) fs) d then
          { (subdirsOf fs d).foldl (fun acc q => pruneAux n acc q) fs with
            dirs := ((subdirsOf fs d).foldl (fun acc q => pruneAux n acc q) fs).dirs.filter
              (fun q => ¬ (q = d)) }
        else (subdirsOf fs d).foldl (fun acc q => pruneAux n acc q) fs
      else fs := rfl

theorem pruneAux_files : ∀ (fuel : Nat) (fs : FS) (d : List String),
    (pruneAux fuel fs d).files = fs.files := by
  intro fuel
  induction fuel with
  | zero => intro fs d; rfl
  | succ n ih =>
    have hfold : ∀ (L : List (List String)) (acc : FS),
        (L.foldl (fun acc q => pruneAux n acc q) acc).files = acc.files := by
      intro L
      induction L with
      | nil => intro acc; rfl
      | cons q0 rest ih2 => intro acc; rw [List.foldl_cons, ih2, ih]
    intro fs d
    rw [pruneAux_succ]
    by_cases hd : d ∈ fs.dirs
    · rw [if_pos hd]
      by_cases he : dirIsEmpty
          ((subdirsOf fs d).foldl (fun acc q => pruneAux n acc q) fs) d = true
      · rw [if_pos he]
        show ((subdirsOf fs d).foldl (fun acc q => pruneAux n acc q) fs).files = fs.files
        exact hfold _ _
      · rw [if_neg he]
        exact hfold _ _
    · rw [if_neg hd]

theorem immediateFiles_congr {fs fs' : FS} (h : fs'.files = fs.files) (q : List String) :
    immediateFiles fs' q = immediateFiles fs q := by
  unfold immediateFiles
  rw [h]

theorem pruneAux_removed_had_no_files :
    ∀ (fuel : Nat) (fs : FS) (d q : List String),
      q ∈ fs.dirs → q ∉ (pruneAux fuel fs d).dirs → immediateFiles fs q = [] := by
  intro fuel
  induction fuel with
  | zero =>
    intro fs d q hq hnq
    exact absurd hq hnq
  | succ n ih =>
    have hfoldfiles : ∀ (L : List (List String)) (acc : FS),
        (L.foldl (fun acc q => pruneAux n acc q) acc).files = acc.files := by
      intro L
      induction L with
      | nil => intro acc; rfl
      | cons q0 rest ih2 => intro acc; rw [List.foldl_cons, ih2, pruneAux_files]
    have hfold : ∀ (L : List (List String)) (acc : FS) (q : List String),
        q ∈ acc.dirs → q ∉ (L.foldl (fun acc q => pruneAux n acc q) acc).dirs →
        immediateFiles acc q = [] := by
      intro L
      induction L with
      | nil => intro acc q hq hnq; exact absurd hq hnq
      | cons q0 rest ih2 =>
        intro acc q hq hnq
        rw [List.foldl_cons] at hnq
        by_cases hmem : q ∈ (pruneAux n acc q0).dirs
        · have h1 := ih2 (pruneAux n acc q0) q hmem hnq
          rw [immediateFiles_congr (pruneAux_files n acc q0) q] at h1
          exact h1
        · exact ih acc q0 q hq hmem
    intro fs d q hq hnq
    rw [pruneAux_succ] at hnq
    by_cases hd : d ∈ fs.dirs
    · rw [if_pos hd] at hnq
      by_cases he : dirIsEmpty
          ((subdirsOf fs d).foldl (fun acc q => pruneAux n acc q) fs) d = true
      · rw [if_pos he] at hnq
        by_cases hmem : q ∈ ((subdirsOf fs d).foldl (fun acc q => pruneAux n acc q) fs).dirs
        · have hqd : q = d := by
            by_contra hne
            exact hnq (by simp [List.mem_filter, hmem, hne])
          subst hqd
          unfold dirIsEmpty at he
          rw [Bool.and_eq_true] at he
          have hif := he.2
          rw [List.isEmpty_iff] at hif
          rw [immediateFiles_congr (hfoldfiles (subdirsOf fs q) fs) q] at hif
          exact hif
        · exact hfold (subdirsOf fs d) fs q hq hmem
      · rw [if_neg he] at hnq
        exact hfold (subdirsOf fs d) fs q hq hnq
    · rw [if_neg hd] at hnq
      exact absurd hq hnq

/-- C7 scenario: the source still provides the `agents` directory but no
files; the only tracked file becomes stale and is removed, leaving
`.cursor/agents` empty after a successful reconcile. -/
def c7sub : List (String × List Entry) := [("agents", [])]

def c7prev : RawManifest :=
  { version := some "1.0.0", selectedLocation := none, installedAt := some "t0",
    submoduleGitHash := none, submoduleGitTag := none, filesIsObject := true,
    files := [("agents/old.md",
      { source := "everything-claude-code/agents/old.md", installedAt := "t0",
        checksum := "O" })] }

def c7st : DestState :=
  { fs := { files := [([".cursor", "agents", "old.md"], "O")],
            dirs := [[".cursor"], [".cursor", "agents"]] }
    manifestFile := some (saveManifestFile c7prev)
    backupFile := none }

/-- C7 does not hold on the code: a successful reconcile leaves behind an
empty managed subdirectory that the empty-directory pruner would remove —
the install path never invokes `removeEmptyDirectories` (it is called only by
the uninstaller). -/
theorem c7_counterexample :
    ∃ st' stats nm ops,
      installWithPreservation [] c7sub "h" none "t" c7st = .ok st' stats nm ops ∧
      [".cursor", "agents"] ∈ st'.fs.dirs ∧
      immediateFiles st'.fs [".cursor", "agents"] = [] ∧
      subdirsOf st'.fs [".cursor", "agents"] = [] ∧
      [".cursor", "agents"] ∉ (removeEmptyDirectories st'.fs [".cursor", "agents"]).dirs :=
  ⟨_, _, _, _, rfl, by decide, rfl, rfl, by decide⟩

/-- C7 amended: a successful reconcile never removes any directory (so it
performs no empty-directory pruning; every directory present before is still
present after), while the pruner `removeEmptyDirectories` — implemented and
invoked only in the uninstaller — recursively removes directories but never
touches files, and removes only directories with no immediate file entries. -/
theorem c7_reconcile_never_prunes (root : List String) (sub : List (String × List Entry))
    (currentHash : String) (currentTag : Option String) (now : String)
    (st st' : DestState) (stats : Stats) (nm : RawManifest) (ops : List Op)
    (hroot : cleanSegs root = true)
    (hwf : WFSubDirs sub = true)
    (hok : installWithPreservation root sub currentHash currentTag now st
      = .ok st' stats nm ops) :
    (∀ q ∈ st.fs.dirs, q ∈ st'.fs.dirs) ∧
    (∀ fs d, (removeEmptyDirectories fs d).files = fs.files) ∧
    (∀ fs d q, q ∈ fs.dirs → q ∉ (removeEmptyDirectories fs d).dirs →
      immediateFiles fs q = []) := by
  obtain ⟨s1, hpd, _, hst', _, _⟩ :=
    install_ok_struct root sub currentHash currentTag now st st' stats nm ops hok
  refine ⟨?_, ?_, ?_⟩
  · intro q hq
    have h0 : q ∈ (initLoopState root st).fs.dirs :=
      FS.mkdirp_dirs_mono st.fs (root ++ [".cursor"]) hq
    have h1 : q ∈ s1.fs.dirs :=
      processDirs_dirs_mono (root ++ [".cursor"]) sub now (cursor_clean hroot)
        DIRS_TO_COPY (wfSubDirs_elim hwf) (initLoopState root st) s1
        dirs_to_copy_clean hpd q h0
    rw [hst']
    show q ∈ (afterCleanup root (loadManifest st.manifestFile) s1).fs.dirs
    unfold afterCleanup
    cases loadManifest st.manifestFile with
    | none => exact h1
    | some m =>
      simp only []
      unfold cleanupStale
      rw [(cleanupFold_fields (root ++ [".cursor"]) m.files s1).2.2]
      exact h1
  · intro fs d
    unfold removeEmptyDirectories
    exact pruneAux_files _ fs d
  · intro fs d q hq hn
    unfold removeEmptyDirectories at hn
    exact pruneAux_removed_had_no_files _ fs d q hq hn

def c7nm : RawManifest :=
  { version := some "1.0.0", selectedLocation := none, installedAt := some "t",
    submoduleGitHash := some "h", submoduleGitTag := none, filesIsObject := true,
    files := [] }

def c7stOut : DestState :=
  { fs := { files := [], dirs := [[".cursor"], [".cursor", "agents"]] }
    manifestFile := some (saveManifestFile c7nm)
    backupFile := some (saveManifestFile c7prev) }

/-- Witness for C7's amended statement at a concrete run. -/
theorem c7_witness :
    (∀ q ∈ c7st.fs.dirs, q ∈ c7stOut.fs.dirs) ∧
    (∀ fs d, (removeEmptyDirectories fs d).files = fs.files) ∧
    (∀ fs d q, q ∈ fs.dirs → q ∉ (removeEmptyDirectories fs d).dirs →
      immediateFiles fs q = []) :=
  c7_reconcile_never_prunes [] c7sub "h" none "t" c7st c7stOut
    { updated := 0, added := 0, removed := 1, preserved := 1 } c7nm
    [Op.preservedUser "agents/old.md", Op.removedStale "agents/old.md"]
    (by decide) (by decide) (by decide)
